import Mathlib

/-!
# goaux/prefixwriter: a line-prefixing writer

Shallow embedding of `src/writer.go` and proofs of its specification.

Modelling conventions.

* A byte slice is a `List UInt8`; the line terminator `'\n'` is the byte `10`.
* Go's `error` is `Option ε` for an arbitrary type `ε` of error values (`none` is `nil`).
* The sink `w.w` (the `writeFlusher` interface) is a pair of state-passing functions over
  an arbitrary sink state `σ`; nothing is assumed about the counts or errors it returns.
  `Write` is embedded against this interface. The sinks that the package really stores in
  `w.w` are those `wrapWriter` builds, a `nopFlusher` or a `bufio.Writer` of the standard
  library; they are modelled by `wrapped`, and the properties of theirs that a statement
  relies on (`SinkHonest`, `SinkSticky`, `SinkTruthful`) are named in it and proved for
  `wrapped` (`wrapped_honest`, `wrapped_sticky`, `wrapped_truthful`).
* `int` and `int64` are unbounded integers (`Int`): the only arithmetic is the addition of
  counts returned by the sink, and a counter can only wrap around once the sink has
  reported more than `2^63` bytes; that is left out of the model.
* `Write` additionally returns `ops`, the list of sink calls it made, in order, each with
  what was offered and what the sink answered.  This log is an observation of the run, it
  is never read back by the embedded code.
* The `for` loop of `Write` recurses on a fuel argument, started at `len(p)`; every
  iteration that continues removes at least one byte of `p`, so this fuel is never
  exhausted (`Write.loop_fuel`).
-/

namespace prefixwriter

/-! ## The sink: `writeFlusher` (writer.go, lines 59-62) -/

/-- The `writeFlusher` interface: `Write` returns `(n, err)` and the next sink state,
`Flush` returns `err` and the next sink state. -/
structure WriteFlusher (σ ε : Type) where
  Write : σ → List UInt8 → Int × Option ε × σ
  Flush : σ → Option ε × σ

/-- The `nopFlusher` around a `*bytes.Buffer` or `*strings.Builder` (writer.go, lines 51-54
and 67-71): the state is the content accumulated so far, `Write` appends everything and
returns `(len(p), nil)`, `Flush` returns `nil`. -/
def nopFlusher (ε : Type) : WriteFlusher (List UInt8) ε where
  Write := fun s p => ((p.length : Int), none, s ++ p)
  Flush := fun s => (none, s)

/-! ## The writer (writer.go, lines 14-20) -/

/-- The `Writer` struct; `w` is the current state of the sink, `pfx` is the field
`prefix`. -/
structure Writer (σ : Type) where
  w : σ
  head : Bool
  pfx : List UInt8
  written : Int

/-- `NewSize` (writer.go, lines 41-47) after its call of `wrapWriter`: `w` is the state of
the sink that `wrapWriter` returned (`wrapWriter` and `wrapped` below), `head` is true, the
prefix is a copy of the argument, `written` is zero. -/
def NewSize {σ : Type} (w : σ) (pfx : List UInt8) : Writer σ :=
  { w := w, head := true, pfx := pfx, written := 0 }

/-- `Written` (writer.go, lines 74-76). -/
def Writer.Written {σ : Type} (w : Writer σ) : Int := w.written

/-- A sink call made by `Write`: the write of the prefix (line 102), the write of a
content segment (lines 112 and 121), or a flush (lines 116 and 132). -/
inductive SinkOp (ε : Type) where
  | writePfx (offered : List UInt8) (n : Int) (err : Option ε)
  | writeSeg (offered : List UInt8) (n : Int) (err : Option ε)
  | flush (err : Option ε)
  deriving DecidableEq

/-- What a call of `Write` leaves behind: the returned `(n, err)`, the writer after the
call, and the sink calls made during the call. -/
structure WriteResult (σ ε : Type) where
  n : Int
  err : Option ε
  self : Writer σ
  ops : List (SinkOp ε)

/-- `bytes.IndexByte(p, c)`: the index of the first `c` in `p`; `none` stands for `-1`. -/
def IndexByte : List UInt8 → UInt8 → Option Nat
  | [], _ => none
  | b :: bs, c => if b = c then some 0 else (IndexByte bs c).map (· + 1)

/-- The `for len(p) > 0` loop of `Write` (writer.go, lines 100-132), with the running
count `n` and the log of sink calls. -/
def Write.loop {σ ε : Type} (S : WriteFlusher σ ε) :
    Nat → Writer σ → List UInt8 → Int → List (SinkOp ε) → WriteResult σ ε
  | 0, w, p, n, ops =>
    -- without fuel only the exit of the loop is left; `Write` starts with fuel `len(p)`,
    -- so the first branch is not reached
    if p.length > 0 then ⟨n, none, w, ops⟩
    else
      -- line 132
      let f := S.Flush w.w
      ⟨n, f.1, { w with w := f.2 }, ops ++ [SinkOp.flush f.1]⟩
  | fuel + 1, w, p, n, ops =>
    if p.length > 0 then
      -- lines 101-108
      let hd : WriteResult σ ε ⊕ (Writer σ × List (SinkOp ε)) :=
        if w.head then
          let r := S.Write w.w w.pfx
          let w1 : Writer σ := { w with w := r.2.2, written := w.written + r.1 }
          let ops1 := ops ++ [SinkOp.writePfx w.pfx r.1 r.2.1]
          if r.2.1.isSome then .inl ⟨n, r.2.1, w1, ops1⟩
          else .inr ({ w1 with head := false }, ops1)
        else .inr (w, ops)
      match hd with
      | .inl res => res
      | .inr (w, ops) =>
        match IndexByte p 10 with
        | none =>
          -- lines 111-119
          let r := S.Write w.w p
          let w1 : Writer σ := { w with w := r.2.2, written := w.written + r.1 }
          let ops1 := ops ++ [SinkOp.writeSeg p r.1 r.2.1]
          if r.2.1.isNone then
            let f := S.Flush w1.w
            ⟨n + r.1, f.1, { w1 with w := f.2 }, ops1 ++ [SinkOp.flush f.1]⟩
          else ⟨n + r.1, r.2.1, w1, ops1⟩
        | some i =>
          -- lines 121-129
          let r := S.Write w.w (p.take (i + 1))
          let w1 : Writer σ := { w with w := r.2.2, written := w.written + r.1 }
          let ops1 := ops ++ [SinkOp.writeSeg (p.take (i + 1)) r.1 r.2.1]
          if r.2.1.isSome then ⟨n + r.1, r.2.1, w1, ops1⟩
          else Write.loop S fuel { w1 with head := true } (p.drop (i + 1)) (n + r.1) ops1
    else
      -- line 132
      let f := S.Flush w.w
      ⟨n, f.1, { w with w := f.2 }, ops ++ [SinkOp.flush f.1]⟩

/-- `Write` (writer.go, lines 94-133). -/
def Write {σ ε : Type} (S : WriteFlusher σ ε) (w : Writer σ) (p : List UInt8) :
    WriteResult σ ε :=
  if p.length = 0 then ⟨0, none, w, []⟩
  else Write.loop S p.length w p 0 []

/-- A sequence of `Write` calls on one writer: the writer after the calls and the log of
all sink calls made, in order. -/
def WriteAll {σ ε : Type} (S : WriteFlusher σ ε) :
    Writer σ → List (List UInt8) → Writer σ × List (SinkOp ε)
  | w, [] => (w, [])
  | w, p :: ps =>
    let r := Write S w p
    let rest := WriteAll S r.self ps
    (rest.1, r.ops ++ rest.2)

/-! ## Observations of a run -/

/-- Sum of the byte counts the sink returned from the write calls of a log, prefix writes
and content writes alike. -/
def opsWritten {ε : Type} : List (SinkOp ε) → Int
  | [] => 0
  | SinkOp.writePfx _ n _ :: ops => n + opsWritten ops
  | SinkOp.writeSeg _ n _ :: ops => n + opsWritten ops
  | SinkOp.flush _ :: ops => opsWritten ops

/-- Sum of the byte counts the sink returned from the content writes of a log; the prefix
writes are left out. -/
def opsContent {ε : Type} : List (SinkOp ε) → Int
  | [] => 0
  | SinkOp.writePfx _ _ _ :: ops => opsContent ops
  | SinkOp.writeSeg _ n _ :: ops => n + opsContent ops
  | SinkOp.flush _ :: ops => opsContent ops

/-- Every write call of the log was answered with exactly the number of bytes offered. -/
def opsAllFull {ε : Type} : List (SinkOp ε) → Prop
  | [] => True
  | SinkOp.writePfx q n _ :: ops => n = q.length ∧ opsAllFull ops
  | SinkOp.writeSeg q n _ :: ops => n = q.length ∧ opsAllFull ops
  | SinkOp.flush _ :: ops => opsAllFull ops

/-- Replaying a log against the sink from state `s`: `some s'` when every logged call,
made in order from `s`, is answered by the sink exactly as logged, ending in `s'`. -/
def replay {σ ε : Type} [DecidableEq ε] (S : WriteFlusher σ ε) : σ → List (SinkOp ε) → Option σ
  | s, [] => some s
  | s, SinkOp.writePfx q n e :: ops =>
    if (S.Write s q).1 = n ∧ (S.Write s q).2.1 = e then replay S (S.Write s q).2.2 ops else none
  | s, SinkOp.writeSeg q n e :: ops =>
    if (S.Write s q).1 = n ∧ (S.Write s q).2.1 = e then replay S (S.Write s q).2.2 ops else none
  | s, SinkOp.flush e :: ops =>
    if (S.Flush s).1 = e then replay S (S.Flush s).2 ops else none

/-! ## Assumptions on the sink used by individual statements -/

/-- The sink accepts every byte offered: each write returns `(len(q), nil)`. -/
def SinkFull {σ ε : Type} (S : WriteFlusher σ ε) : Prop :=
  ∀ s q, (S.Write s q).1 = (q.length : Int) ∧ (S.Write s q).2.1 = none

/-- Every flush of the sink succeeds. -/
def FlushOk {σ ε : Type} (S : WriteFlusher σ ε) : Prop :=
  ∀ s, (S.Flush s).1 = none

/-- The bytes on the sink are observed by `out`: a write appends what was offered, a flush
does not change them. -/
def SinkStores {σ ε : Type} (S : WriteFlusher σ ε) (out : σ → List UInt8) : Prop :=
  (∀ s q, out (S.Write s q).2.2 = out s ++ q) ∧ (∀ s, out (S.Flush s).2 = out s)

/-- Each sink write returns a count between 0 and the number of bytes offered. -/
def SinkBounded {σ ε : Type} (S : WriteFlusher σ ε) : Prop :=
  ∀ s q, 0 ≤ (S.Write s q).1 ∧ (S.Write s q).1 ≤ (q.length : Int)

/-- The `io.Writer` rule for short writes: a write that returns `nil` has returned the
number of bytes it was offered. -/
def SinkHonest {σ ε : Type} (S : WriteFlusher σ ε) : Prop :=
  ∀ s q, (S.Write s q).2.1 = none → (S.Write s q).1 = (q.length : Int)

/-! ## The specification's description of the output -/

/-- Segments of the specification: `p` cut just after every `'\n'`, plus one final
unterminated segment when `p` is non-empty and does not end in `'\n'`. -/
def segments : List UInt8 → List (List UInt8)
  | [] => []
  | b :: bs =>
    if b = 10 then [b] :: segments bs
    else
      match segments bs with
      | [] => [[b]]
      | s :: ss => (b :: s) :: ss

/-- The expected output of the specification: the prefix before every segment. -/
def expected (pfx p : List UInt8) : List UInt8 :=
  (segments p).flatMap (fun seg => pfx ++ seg)

/-- Byte-by-byte form of the expected output, from a given line-start flag: the prefix is
placed before a byte exactly when the flag is set, and the flag is set again after each
`'\n'`. -/
def render (pfx : List UInt8) : Bool → List UInt8 → List UInt8
  | _, [] => []
  | h, b :: bs => (if h then pfx else []) ++ b :: render pfx (decide (b = 10)) bs

/-- The line-start flag after the bytes `p` have gone through, starting from `h`. -/
def headAfter : Bool → List UInt8 → Bool
  | h, [] => h
  | _, b :: bs => headAfter (decide (b = 10)) bs

/-- The scanner of the specification's `strip`, with the number `j` of bytes still to be
dropped: at `j = 0` bytes are copied, and `j` is reset to `k` after a copied `'\n'`. -/
def stripFrom (k : Nat) : Nat → List UInt8 → List UInt8
  | _, [] => []
  | 0, b :: bs => b :: stripFrom k (if b = 10 then k else 0) bs
  | j + 1, _ :: bs => stripFrom k j bs

/-- `strip(k, out)`: repeatedly drop `k` bytes, then copy through and including the next
`'\n'` (or to the end). -/
def strip (k : Nat) (out : List UInt8) : List UInt8 := stripFrom k k out

/-- The number `L` of lines of `p`: the number of `'\n'` bytes, plus one when `p` is
non-empty and its last byte is not `'\n'`. -/
def lineCount (p : List UInt8) : Nat :=
  p.count 10 + (if p ≠ [] ∧ p.getLast? ≠ some 10 then 1 else 0)

/-- A sink that accepts at most `k` bytes per write and reports a short write as an error:
the state is the content accepted so far. -/
def limitSink (k : Nat) : WriteFlusher (List UInt8) Unit where
  Write := fun s q => (((q.take k).length : Int), (if q.length ≤ k then none else some ()),
    s ++ q.take k)
  Flush := fun s => (none, s)

/-! ## Further observations of a run -/

/-- The error a logged sink call returned. -/
def opErr {ε : Type} : SinkOp ε → Option ε
  | SinkOp.writePfx _ _ e => e
  | SinkOp.writeSeg _ _ e => e
  | SinkOp.flush e => e

/-- The error of the first failed call of a log, `nil` when no call failed. -/
def firstErr {ε : Type} : List (SinkOp ε) → Option ε
  | [] => none
  | op :: ops =>
    match opErr op with
    | some e => some e
    | none => firstErr ops

/-- A logged call without the sink's answer and without the bytes of the prefix: what is
left is the kind of each call and the content segment offered. -/
def eraseOp {ε : Type} : SinkOp ε → SinkOp Unit
  | SinkOp.writePfx _ _ _ => SinkOp.writePfx [] 0 none
  | SinkOp.writeSeg q _ _ => SinkOp.writeSeg q 0 none
  | SinkOp.flush _ => SinkOp.flush none

/-- A logged call is a sink write that returned no error. -/
def okWrite {ε : Type} : SinkOp ε → Bool
  | SinkOp.writePfx _ _ e => e.isNone
  | SinkOp.writeSeg _ _ e => e.isNone
  | SinkOp.flush _ => false

/-- The most recent sink write of a log that returned no error, if any. -/
def lastOkWrite {ε : Type} : List (SinkOp ε) → Option (SinkOp ε)
  | [] => none
  | op :: ops =>
    match lastOkWrite ops with
    | some o => some o
    | none => if okWrite op then some op else none

/-- A logged call is the write of a content segment that ends in `'\n'`. -/
def endsLine {ε : Type} : SinkOp ε → Bool
  | SinkOp.writeSeg q _ _ => decide (q.getLast? = some 10)
  | _ => false

/-- The bytes of the input that the sink accepted according to a log: of every content
write the first `n` bytes offered, `n` being the count the sink returned. -/
def acceptedInput {ε : Type} : List (SinkOp ε) → List UInt8
  | [] => []
  | SinkOp.writeSeg q n _ :: ops => q.take n.toNat ++ acceptedInput ops
  | SinkOp.writePfx _ _ _ :: ops => acceptedInput ops
  | SinkOp.flush _ :: ops => acceptedInput ops

/-- The results of a sequence of `Write` calls on one writer, call by call. -/
def WriteEach {σ ε : Type} (S : WriteFlusher σ ε) :
    Writer σ → List (List UInt8) → List (WriteResult σ ε)
  | _, [] => []
  | w, p :: ps => Write S w p :: WriteEach S (Write S w p).self ps

/-! ## Further assumptions on the sink -/

/-- Every sink write returns a non-negative count. -/
def SinkNonneg {σ ε : Type} (S : WriteFlusher σ ε) : Prop :=
  ∀ s q, 0 ≤ (S.Write s q).1

/-- The sink stores what it reports: every write returns a count `n` between 0 and the
number of bytes offered and appends the first `n` bytes offered to the bytes observed by
`out`; a flush does not change them. -/
def SinkTruthful {σ ε : Type} (S : WriteFlusher σ ε) (out : σ → List UInt8) : Prop :=
  (∀ s q, 0 ≤ (S.Write s q).1 ∧ (S.Write s q).1 ≤ (q.length : Int) ∧
    out (S.Write s q).2.2 = out s ++ q.take (S.Write s q).1.toNat) ∧
  (∀ s, out (S.Flush s).2 = out s)

/-! ## Further concrete sinks -/

/-- A sink with one fault: its write number `k` (counted from 0) accepts only the first `m`
bytes offered and returns an error, every other write accepts everything. The state is the
number of writes made and the content accepted so far. -/
def faultSink (k m : Nat) : WriteFlusher (Nat × List UInt8) Unit where
  Write := fun s q =>
    if s.1 = k then (((q.take m).length : Int), some (), (s.1 + 1, s.2 ++ q.take m))
    else ((q.length : Int), none, (s.1 + 1, s.2 ++ q))
  Flush := fun s => (none, s)

/-- A buffering sink: the state is the pair of the bytes still buffered and the bytes
flushed; a write appends to the buffered bytes, a flush moves them to the flushed ones. -/
def bufSink : WriteFlusher (List UInt8 × List UInt8) Unit where
  Write := fun s q => ((q.length : Int), none, (s.1 ++ q, s.2))
  Flush := fun s => (none, ([], s.2 ++ s.1))

/-! ## The sinks that `wrapWriter` builds (writer.go, lines 49-57)

The field `w.w` is never a writer chosen freely: `NewSize` passes the destination through
`wrapWriter`, which returns a `nopFlusher` around a `*bytes.Buffer` or `*strings.Builder`
and a `bufio.Writer` of Go's standard library around every other `io.Writer`. -/

/-- An `io.Writer` behind a `bufio.Writer`: `Write` returns `(n, err)` and the next state of
the destination, with no assumption on `n` or `err`. Where the count is used it is capped at
the number of bytes offered: `io.Writer` requires `0 <= n <= len(p)`, and `bufio.Writer`
slices with it. -/
structure RawWriter (υ ε : Type) where
  Write : υ → List UInt8 → Nat × Option ε × υ

/-- The state of a `bufio.Writer`: the destination `wr`, the buffered bytes `buf[0:n]`, the
capacity `len(buf)`, and the first error met, which the writer keeps. -/
structure Bufio (υ ε : Type) where
  wr : υ
  buf : List UInt8
  size : Nat
  err : Option ε
  deriving DecidableEq

/-- `bufio.Writer.Available`: the number of unused bytes of the buffer. -/
def Bufio.Available {υ ε : Type} (b : Bufio υ ε) : Nat := b.size - b.buf.length

/-- `bufio.Writer.Buffered`: the number of bytes in the buffer. -/
def Bufio.Buffered {υ ε : Type} (b : Bufio υ ε) : Nat := b.buf.length

/-- The default buffer size of package `bufio`. -/
def defaultBufSize : Nat := 4096

/-- `bufio.NewWriterSize` on a destination that is not itself a `bufio.Writer`: an empty
buffer of `size` bytes, of the default size when `size <= 0`. -/
def NewWriterSize {υ ε : Type} (wr : υ) (size : Int) : Bufio υ ε :=
  { wr := wr, buf := [], size := if size ≤ 0 then defaultBufSize else size.toNat, err := none }

/-- `bufio.Writer.Flush`: returns the kept error if there is one, does nothing on an empty
buffer, and otherwise writes the buffer to the destination; a short write without an error
becomes `errShort` (`io.ErrShortWrite`); on an error the bytes not written stay buffered and
the error is kept. -/
def Bufio.Flush {υ ε : Type} (U : RawWriter υ ε) (errShort : ε) (b : Bufio υ ε) :
    Option ε × Bufio υ ε :=
  if b.err.isSome then (b.err, b)
  else if b.buf.length = 0 then (none, b)
  else
    let r := U.Write b.wr b.buf
    let n := min r.1 b.buf.length
    let err := if n < b.buf.length ∧ r.2.1.isNone then some errShort else r.2.1
    if err.isSome then (err, { b with wr := r.2.2, buf := b.buf.drop n, err := err })
    else (none, { b with wr := r.2.2, buf := [] })

/-- The end of `bufio.Writer.Write`, after its loop: the kept error if there is one,
otherwise the rest of `p` is copied into the buffer. -/
def Bufio.Write.finish {υ ε : Type} (b : Bufio υ ε) (p : List UInt8) (nn : Nat) :
    Nat × Option ε × Bufio υ ε :=
  if b.err.isSome then (nn, b.err, b)
  else (nn + min b.Available p.length, none,
    { b with buf := b.buf ++ p.take (min b.Available p.length) })

/-- The loop of `bufio.Writer.Write`: while `p` does not fit into the buffer and no error is
kept, an empty buffer makes the writer pass `p` straight to the destination, and a non-empty
one is filled up from `p` and flushed. The loop recurses on fuel; it ends as soon as a flush
or a direct write fails, and otherwise every direct write that accepts a byte shortens
`p`. -/
def Bufio.Write.loop {υ ε : Type} (U : RawWriter υ ε) (errShort : ε) :
    Nat → Bufio υ ε → List UInt8 → Nat → Nat × Option ε × Bufio υ ε
  | 0, b, p, nn => Bufio.Write.finish b p nn
  | fuel + 1, b, p, nn =>
    if p.length > b.Available ∧ b.err.isNone then
      if b.Buffered = 0 then
        let r := U.Write b.wr p
        let n := min r.1 p.length
        Bufio.Write.loop U errShort fuel { b with wr := r.2.2, err := r.2.1 } (p.drop n) (nn + n)
      else
        let n := min b.Available p.length
        let b1 := (Bufio.Flush U errShort { b with buf := b.buf ++ p.take n }).2
        Bufio.Write.loop U errShort fuel b1 (p.drop n) (nn + n)
    else Bufio.Write.finish b p nn

/-- `bufio.Writer.Write`. The fuel `len(p) + 2` is enough whenever every direct write that
returns no error accepts at least one byte (`Bufio.Write.loop_enough`): more fuel then
gives the same result. A destination that answers a direct write of a non-empty `p` with
`(0, nil)` makes the Go loop call it again with the same bytes; the model follows such a
destination for `len(p) + 2` rounds only. -/
def Bufio.Write {υ ε : Type} (U : RawWriter υ ε) (errShort : ε) (b : Bufio υ ε)
    (p : List UInt8) : Nat × Option ε × Bufio υ ε :=
  Bufio.Write.loop U errShort (p.length + 2) b p 0

/-- A `bufio.Writer` over the destination `U` as a sink of the writer. -/
def bufioWriter {υ ε : Type} (U : RawWriter υ ε) (errShort : ε) : WriteFlusher (Bufio υ ε) ε where
  Write := fun b p => (((Bufio.Write U errShort b p).1 : Int), (Bufio.Write U errShort b p).2.1,
    (Bufio.Write U errShort b p).2.2)
  Flush := fun b => Bufio.Flush U errShort b

/-- The destination given to `New` or `NewSize`: a `*bytes.Buffer` or `*strings.Builder`
with its content, or any other `io.Writer` with its state. -/
inductive Dest (υ : Type) where
  | buffer (content : List UInt8)
  | writer (wr : υ)

/-- The state of the sink that `wrapWriter` returns: a `nopFlusher` around an in-memory
buffer, or a `bufio.Writer`. -/
inductive Wrapped (υ ε : Type) where
  | nop (content : List UInt8)
  | bufio (b : Bufio υ ε)
  deriving DecidableEq

/-- `wrapWriter` (writer.go, lines 49-57). -/
def wrapWriter {υ ε : Type} (d : Dest υ) (size : Int) : Wrapped υ ε :=
  match d with
  | Dest.buffer content => Wrapped.nop content
  | Dest.writer wr => Wrapped.bufio (NewWriterSize wr size)

/-- The sink of a writer built by `NewSize`: the `writeFlusher` that `wrapWriter` returned,
over the destination `U`. -/
def wrapped {υ ε : Type} (U : RawWriter υ ε) (errShort : ε) : WriteFlusher (Wrapped υ ε) ε where
  Write := fun s q =>
    match s with
    | Wrapped.nop content =>
      (((nopFlusher ε).Write content q).1, ((nopFlusher ε).Write content q).2.1,
        Wrapped.nop ((nopFlusher ε).Write content q).2.2)
    | Wrapped.bufio b =>
      (((bufioWriter U errShort).Write b q).1, ((bufioWriter U errShort).Write b q).2.1,
        Wrapped.bufio ((bufioWriter U errShort).Write b q).2.2)
  Flush := fun s =>
    match s with
    | Wrapped.nop content =>
      (((nopFlusher ε).Flush content).1, Wrapped.nop ((nopFlusher ε).Flush content).2)
    | Wrapped.bufio b =>
      (((bufioWriter U errShort).Flush b).1, Wrapped.bufio ((bufioWriter U errShort).Flush b).2)

/-- `New` (writer.go, lines 30-32): `NewSize` with size 0, on the sink that `wrapWriter`
builds for the destination. -/
def New {υ ε : Type} (d : Dest υ) (pfx : List UInt8) : Writer (Wrapped υ ε) :=
  NewSize (wrapWriter d 0) pfx

/-- The bytes a wrapped sink has accepted, given the bytes `outU` on its destination: the
content of the in-memory buffer, or the bytes on the destination followed by the buffered
ones. -/
def Wrapped.out {υ ε : Type} (outU : υ → List UInt8) : Wrapped υ ε → List UInt8
  | Wrapped.nop content => content
  | Wrapped.bufio b => outU b.wr ++ b.buf

/-- A destination with one fault: its write number `k` (counted from 0) accepts only the
first `m` bytes offered and returns the error `1`, every other write accepts everything. The
state is the number of writes made and the content accepted so far. -/
def faultDest (k m : Nat) : RawWriter (Nat × List UInt8) Nat where
  Write := fun s q =>
    if s.1 = k then (m, some 1, (s.1 + 1, s.2 ++ q.take m))
    else (q.length, none, (s.1 + 1, s.2 ++ q))

/-! ## Assumptions that the sinks of `wrapWriter` meet -/

/-- The sink state `s` is dead with error `e`: every write returns `(0, e)`, every flush
returns `e`, and the state does not change. -/
def SinkDead {σ ε : Type} (S : WriteFlusher σ ε) (s : σ) (e : ε) : Prop :=
  (∀ q, S.Write s q = (0, some e, s)) ∧ S.Flush s = (some e, s)

/-- The sink keeps its first error, as a `bufio.Writer` does: a write or a flush that
returns an error leaves the sink dead with that error. -/
def SinkSticky {σ ε : Type} (S : WriteFlusher σ ε) : Prop :=
  (∀ s q e, (S.Write s q).2.1 = some e → SinkDead S (S.Write s q).2.2 e) ∧
  (∀ s e, (S.Flush s).1 = some e → SinkDead S (S.Flush s).2 e)

/-- Every write of the destination that returns no error accepts at least one of the bytes
offered, when there are any. -/
def RawProgress {υ ε : Type} (U : RawWriter υ ε) : Prop :=
  ∀ s q, q ≠ [] → (U.Write s q).2.1 = none → 0 < (U.Write s q).1

/-- The destination stores what it reports: a write that returns `n` appends the first `n`
bytes offered to the bytes observed by `outU`. -/
def RawTruthful {υ ε : Type} (U : RawWriter υ ε) (outU : υ → List UInt8) : Prop :=
  ∀ s q, outU (U.Write s q).2.2 = outU s ++ q.take (min (U.Write s q).1 q.length)

/-! ## Auxiliary facts -/

theorem opsWritten_append {ε : Type} (a b : List (SinkOp ε)) :
    opsWritten (a ++ b) = opsWritten a + opsWritten b := by
  induction a with
  | nil => simp [opsWritten]
  | cons x xs ih => cases x <;> simp [opsWritten, ih] <;> ring

theorem opsContent_append {ε : Type} (a b : List (SinkOp ε)) :
    opsContent (a ++ b) = opsContent a + opsContent b := by
  induction a with
  | nil => simp [opsContent]
  | cons x xs ih =>
    cases x <;> simp [opsContent, ih]
    ring

theorem opsAllFull_append {ε : Type} (a b : List (SinkOp ε)) :
    opsAllFull (a ++ b) ↔ opsAllFull a ∧ opsAllFull b := by
  induction a with
  | nil => simp [opsAllFull]
  | cons x xs ih => cases x <;> simp [opsAllFull, ih, and_assoc]

theorem IndexByte_lt {p : List UInt8} {c : UInt8} {i : Nat} (h : IndexByte p c = some i) :
    i < p.length := by
  induction p generalizing i with
  | nil => simp [IndexByte] at h
  | cons b bs ih =>
    simp only [IndexByte] at h
    split at h
    · simp at h; subst h; simp
    · cases hj : IndexByte bs c with
      | none => simp [hj] at h
      | some j =>
        simp [hj] at h
        subst h
        have := ih hj
        simp; omega

/-! ## Unfolding the loop -/

theorem Write.loop_nil {σ ε : Type} (S : WriteFlusher σ ε) (fuel : Nat) (w : Writer σ)
    (n : Int) (ops : List (SinkOp ε)) :
    Write.loop S fuel w [] n ops
      = ⟨n, (S.Flush w.w).1, { w with w := (S.Flush w.w).2 },
          ops ++ [SinkOp.flush (S.Flush w.w).1]⟩ := by
  cases fuel <;> simp [Write.loop]

theorem Write.loop_pfx_err {σ ε : Type} (S : WriteFlusher σ ε) (fuel : Nat) (w : Writer σ)
    (p : List UInt8) (n : Int) (ops : List (SinkOp ε)) (hp : p ≠ []) (hh : w.head = true)
    (he : (S.Write w.w w.pfx).2.1.isSome = true) :
    Write.loop S (fuel + 1) w p n ops
      = ⟨n, (S.Write w.w w.pfx).2.1,
          { w with w := (S.Write w.w w.pfx).2.2, written := w.written + (S.Write w.w w.pfx).1 },
          ops ++ [SinkOp.writePfx w.pfx (S.Write w.w w.pfx).1 (S.Write w.w w.pfx).2.1]⟩ := by
  have hl : p.length > 0 := List.length_pos.mpr hp
  simp [Write.loop, hl, hh, he]

theorem Write.loop_pfx_ok {σ ε : Type} (S : WriteFlusher σ ε) (fuel : Nat) (w : Writer σ)
    (p : List UInt8) (n : Int) (ops : List (SinkOp ε)) (hp : p ≠ []) (hh : w.head = true)
    (he : (S.Write w.w w.pfx).2.1 = none) :
    Write.loop S (fuel + 1) w p n ops
      = Write.loop S (fuel + 1)
          { w with w := (S.Write w.w w.pfx).2.2, written := w.written + (S.Write w.w w.pfx).1,
                   head := false } p n
          (ops ++ [SinkOp.writePfx w.pfx (S.Write w.w w.pfx).1 (S.Write w.w w.pfx).2.1]) := by
  have hl : p.length > 0 := List.length_pos.mpr hp
  simp [Write.loop, hl, hh, he]

theorem Write.loop_last {σ ε : Type} (S : WriteFlusher σ ε) (fuel : Nat) (w : Writer σ)
    (p : List UInt8) (n : Int) (ops : List (SinkOp ε)) (hp : p ≠ []) (hh : w.head = false)
    (hi : IndexByte p 10 = none) :
    Write.loop S (fuel + 1) w p n ops
      = if (S.Write w.w p).2.1.isNone then
          ⟨n + (S.Write w.w p).1, (S.Flush (S.Write w.w p).2.2).1,
            { w with w := (S.Flush (S.Write w.w p).2.2).2,
                     written := w.written + (S.Write w.w p).1 },
            ops ++ [SinkOp.writeSeg p (S.Write w.w p).1 (S.Write w.w p).2.1]
              ++ [SinkOp.flush (S.Flush (S.Write w.w p).2.2).1]⟩
        else
          ⟨n + (S.Write w.w p).1, (S.Write w.w p).2.1,
            { w with w := (S.Write w.w p).2.2, written := w.written + (S.Write w.w p).1 },
            ops ++ [SinkOp.writeSeg p (S.Write w.w p).1 (S.Write w.w p).2.1]⟩ := by
  have hl : p.length > 0 := List.length_pos.mpr hp
  simp [Write.loop, hl, hh, hi]

theorem Write.loop_seg {σ ε : Type} (S : WriteFlusher σ ε) (fuel : Nat) (w : Writer σ)
    (p : List UInt8) (n : Int) (ops : List (SinkOp ε)) (i : Nat) (hp : p ≠ [])
    (hh : w.head = false) (hi : IndexByte p 10 = some i) :
    Write.loop S (fuel + 1) w p n ops
      = if (S.Write w.w (p.take (i + 1))).2.1.isSome then
          ⟨n + (S.Write w.w (p.take (i + 1))).1, (S.Write w.w (p.take (i + 1))).2.1,
            { w with w := (S.Write w.w (p.take (i + 1))).2.2,
                     written := w.written + (S.Write w.w (p.take (i + 1))).1 },
            ops ++ [SinkOp.writeSeg (p.take (i + 1)) (S.Write w.w (p.take (i + 1))).1
                      (S.Write w.w (p.take (i + 1))).2.1]⟩
        else
          Write.loop S fuel
            { w with w := (S.Write w.w (p.take (i + 1))).2.2,
                     written := w.written + (S.Write w.w (p.take (i + 1))).1,
                     head := true }
            (p.drop (i + 1)) (n + (S.Write w.w (p.take (i + 1))).1)
            (ops ++ [SinkOp.writeSeg (p.take (i + 1)) (S.Write w.w (p.take (i + 1))).1
                      (S.Write w.w (p.take (i + 1))).2.1]) := by
  have hl : p.length > 0 := List.length_pos.mpr hp
  simp [Write.loop, hl, hh, hi]

/-- Induction over the iterations of the loop: a relation between the loop's arguments and
its result that holds at each exit and is carried backwards through each continuing step
holds for every run with enough fuel. -/
theorem Write.loop_induct {σ ε : Type} (S : WriteFlusher σ ε)
    (P : Writer σ → List UInt8 → Int → List (SinkOp ε) → WriteResult σ ε → Prop)
    (h_nil : ∀ w n ops,
      P w [] n ops ⟨n, (S.Flush w.w).1, { w with w := (S.Flush w.w).2 },
        ops ++ [SinkOp.flush (S.Flush w.w).1]⟩)
    (h_pfx_err : ∀ w p n ops, p ≠ [] → w.head = true → (S.Write w.w w.pfx).2.1.isSome = true →
      P w p n ops ⟨n, (S.Write w.w w.pfx).2.1, { w with w := (S.Write w.w w.pfx).2.2, written := w.written + (S.Write w.w w.pfx).1 },
        ops ++ [SinkOp.writePfx w.pfx (S.Write w.w w.pfx).1 (S.Write w.w w.pfx).2.1]⟩)
    (h_pfx_ok : ∀ w p n ops r, p ≠ [] → w.head = true → (S.Write w.w w.pfx).2.1 = none →
      P { w with w := (S.Write w.w w.pfx).2.2, written := w.written + (S.Write w.w w.pfx).1, head := false } p n
        (ops ++ [SinkOp.writePfx w.pfx (S.Write w.w w.pfx).1 (S.Write w.w w.pfx).2.1]) r →
      P w p n ops r)
    (h_last_ok : ∀ w p n ops, p ≠ [] → w.head = false → IndexByte p 10 = none →
      (S.Write w.w p).2.1 = none →
      P w p n ops ⟨n + (S.Write w.w p).1, (S.Flush (S.Write w.w p).2.2).1,
        { w with w := (S.Flush (S.Write w.w p).2.2).2, written := w.written + (S.Write w.w p).1 },
        ops ++ [SinkOp.writeSeg p (S.Write w.w p).1 (S.Write w.w p).2.1]
          ++ [SinkOp.flush (S.Flush (S.Write w.w p).2.2).1]⟩)
    (h_last_err : ∀ w p n ops, p ≠ [] → w.head = false → IndexByte p 10 = none →
      (S.Write w.w p).2.1.isSome = true →
      P w p n ops ⟨n + (S.Write w.w p).1, (S.Write w.w p).2.1, { w with w := (S.Write w.w p).2.2, written := w.written + (S.Write w.w p).1 },
        ops ++ [SinkOp.writeSeg p (S.Write w.w p).1 (S.Write w.w p).2.1]⟩)
    (h_seg_err : ∀ w p n ops i, p ≠ [] → w.head = false → IndexByte p 10 = some i →
      (S.Write w.w (p.take (i + 1))).2.1.isSome = true →
      P w p n ops ⟨n + (S.Write w.w (p.take (i + 1))).1, (S.Write w.w (p.take (i + 1))).2.1,
        { w with w := (S.Write w.w (p.take (i + 1))).2.2, written := w.written + (S.Write w.w (p.take (i + 1))).1 },
        ops ++ [SinkOp.writeSeg (p.take (i + 1)) (S.Write w.w (p.take (i + 1))).1
          (S.Write w.w (p.take (i + 1))).2.1]⟩)
    (h_seg_ok : ∀ w p n ops i r, p ≠ [] → w.head = false → IndexByte p 10 = some i →
      (S.Write w.w (p.take (i + 1))).2.1 = none →
      P { w with w := (S.Write w.w (p.take (i + 1))).2.2, written := w.written + (S.Write w.w (p.take (i + 1))).1, head := true } (p.drop (i + 1))
        (n + (S.Write w.w (p.take (i + 1))).1)
        (ops ++ [SinkOp.writeSeg (p.take (i + 1)) (S.Write w.w (p.take (i + 1))).1
          (S.Write w.w (p.take (i + 1))).2.1]) r →
      P w p n ops r)
    (fuel : Nat) (w : Writer σ) (p : List UInt8) (n : Int) (ops : List (SinkOp ε))
    (hf : p.length ≤ fuel) : P w p n ops (Write.loop S fuel w p n ops) := by
  induction fuel generalizing w p n ops with
  | zero =>
    have : p = [] := List.length_eq_zero.mp (Nat.le_zero.mp hf)
    subst this
    rw [Write.loop_nil]; exact h_nil w n ops
  | succ fuel ih =>
    by_cases hp : p = []
    · subst hp
      rw [Write.loop_nil]; exact h_nil w n ops
    · have body : ∀ (w : Writer σ) (ops : List (SinkOp ε)), w.head = false →
          P w p n ops (Write.loop S (fuel + 1) w p n ops) := by
        intro w ops hh
        cases hi : IndexByte p 10 with
        | none =>
          cases he : (S.Write w.w p).2.1 with
          | none =>
            rw [Write.loop_last S fuel w p n ops hp hh hi, if_pos (by simp [he])]
            exact h_last_ok w p n ops hp hh hi he
          | some e =>
            rw [Write.loop_last S fuel w p n ops hp hh hi, if_neg (by simp [he])]
            exact h_last_err w p n ops hp hh hi (by simp [he])
        | some i =>
          cases he : (S.Write w.w (p.take (i + 1))).2.1 with
          | none =>
            rw [Write.loop_seg S fuel w p n ops i hp hh hi, if_neg (by simp [he])]
            apply h_seg_ok w p n ops i _ hp hh hi he
            apply ih
            have := IndexByte_lt hi
            simp only [List.length_drop]
            omega
          | some e =>
            rw [Write.loop_seg S fuel w p n ops i hp hh hi, if_pos (by simp [he])]
            exact h_seg_err w p n ops i hp hh hi (by simp [he])
      cases hh : w.head with
      | false => exact body w ops hh
      | true =>
        cases he : (S.Write w.w w.pfx).2.1 with
        | none =>
          rw [Write.loop_pfx_ok S fuel w p n ops hp hh he]
          exact h_pfx_ok w p n ops _ hp hh he (body _ _ rfl)
        | some e =>
          rw [Write.loop_pfx_err S fuel w p n ops hp hh (by simp [he])]
          exact h_pfx_err w p n ops hp hh (by simp [he])

/-! ## Facts about `IndexByte`, `render` and `headAfter` -/

theorem IndexByte_cons_ne {b c : UInt8} {bs : List UInt8} (h : b ≠ c) :
    IndexByte (b :: bs) c = (IndexByte bs c).map (· + 1) := by
  simp [IndexByte, h]

theorem render_head_true (pfx : List UInt8) {p : List UInt8} (hp : p ≠ []) :
    render pfx true p = pfx ++ render pfx false p := by
  cases p with
  | nil => exact absurd rfl hp
  | cons b bs => simp [render]

theorem render_last (pfx : List UInt8) {p : List UInt8} (hi : IndexByte p 10 = none) :
    render pfx false p = p := by
  induction p with
  | nil => rfl
  | cons b bs ih =>
    by_cases hb : b = 10
    · simp [IndexByte, hb] at hi
    · rw [IndexByte_cons_ne hb] at hi
      have hi' : IndexByte bs 10 = none := by simpa using hi
      simp [render, hb, ih hi']

theorem render_seg (pfx : List UInt8) {p : List UInt8} {i : Nat}
    (hi : IndexByte p 10 = some i) :
    render pfx false p = p.take (i + 1) ++ render pfx true (p.drop (i + 1)) := by
  induction p generalizing i with
  | nil => simp [IndexByte] at hi
  | cons b bs ih =>
    by_cases hb : b = 10
    · have : i = 0 := by simpa [IndexByte, hb] using hi.symm
      subst this
      simp [render, hb]
    · rw [IndexByte_cons_ne hb] at hi
      cases hj : IndexByte bs 10 with
      | none => simp [hj] at hi
      | some j =>
        have : i = j + 1 := by simpa [hj] using hi.symm
        subst this
        simp [render, hb, ih hj]

theorem headAfter_last {p : List UInt8} (h : Bool) (hp : p ≠ [])
    (hi : IndexByte p 10 = none) : headAfter h p = false := by
  induction p generalizing h with
  | nil => exact absurd rfl hp
  | cons b bs ih =>
    by_cases hb : b = 10
    · simp [IndexByte, hb] at hi
    · rw [IndexByte_cons_ne hb] at hi
      have hi' : IndexByte bs 10 = none := by simpa using hi
      cases bs with
      | nil => simp [headAfter, hb]
      | cons c cs => simpa [headAfter] using ih (decide (b = 10)) (by simp) hi'

theorem headAfter_seg {p : List UInt8} {i : Nat} (h : Bool)
    (hi : IndexByte p 10 = some i) : headAfter h p = headAfter true (p.drop (i + 1)) := by
  induction p generalizing i h with
  | nil => simp [IndexByte] at hi
  | cons b bs ih =>
    by_cases hb : b = 10
    · have : i = 0 := by simpa [IndexByte, hb] using hi.symm
      subst this
      simp [headAfter, hb]
    · rw [IndexByte_cons_ne hb] at hi
      cases hj : IndexByte bs 10 with
      | none => simp [hj] at hi
      | some j =>
        have : i = j + 1 := by simpa [hj] using hi.symm
        subst this
        simpa [headAfter] using ih (decide (b = 10)) hj

theorem headAfter_of_ne_nil {p : List UInt8} (h h' : Bool) (hp : p ≠ []) :
    headAfter h p = headAfter h' p := by
  cases p with
  | nil => exact absurd rfl hp
  | cons b bs => rfl

theorem render_append (pfx : List UInt8) (h : Bool) (a b : List UInt8) :
    render pfx h (a ++ b) = render pfx h a ++ render pfx (headAfter h a) b := by
  induction a generalizing h with
  | nil => simp [render, headAfter]
  | cons x xs ih => simp [render, headAfter, ih]

theorem headAfter_append (h : Bool) (a b : List UInt8) :
    headAfter h (a ++ b) = headAfter (headAfter h a) b := by
  induction a generalizing h with
  | nil => simp [headAfter]
  | cons x xs ih => simp [headAfter, ih]

theorem headAfter_eq_getLast (h : Bool) {p : List UInt8} (hp : p ≠ []) :
    headAfter h p = decide (p.getLast? = some 10) := by
  induction p generalizing h with
  | nil => exact absurd rfl hp
  | cons b bs ih =>
    cases bs with
    | nil => simp [headAfter]
    | cons c cs =>
      have := ih (decide (b = 10)) (by simp)
      simpa [headAfter, List.getLast?_cons_cons] using this

/-! ## Invariants of the loop -/

/-- The result of the loop does not depend on the fuel, once it is at least `len(p)`. -/
theorem Write.loop_fuel {σ ε : Type} (S : WriteFlusher σ ε) (fuel : Nat) (w : Writer σ)
    (p : List UInt8) (n : Int) (ops : List (SinkOp ε)) (hf : p.length ≤ fuel) :
    Write.loop S fuel w p n ops = Write.loop S p.length w p n ops := by
  have key : ∀ fuel' : Nat, p.length ≤ fuel' →
      Write.loop S fuel' w p n ops = Write.loop S p.length w p n ops := by
    refine Write.loop_induct S
      (fun w p n ops r => ∀ fuel' : Nat, p.length ≤ fuel' → Write.loop S fuel' w p n ops = r)
      ?_ ?_ ?_ ?_ ?_ ?_ ?_ p.length w p n ops (le_refl _)
    · intro w n ops fuel' _
      exact Write.loop_nil S fuel' w n ops
    · intro w p n ops hp hh he fuel' hf'
      obtain ⟨k, rfl⟩ : ∃ k, fuel' = k + 1 :=
        ⟨fuel' - 1, by have := List.length_pos.mpr hp; omega⟩
      exact Write.loop_pfx_err S k w p n ops hp hh he
    · intro w p n ops r hp hh he ih fuel' hf'
      obtain ⟨k, rfl⟩ : ∃ k, fuel' = k + 1 :=
        ⟨fuel' - 1, by have := List.length_pos.mpr hp; omega⟩
      rw [Write.loop_pfx_ok S k w p n ops hp hh he]
      exact ih (k + 1) hf'
    · intro w p n ops hp hh hi he fuel' hf'
      obtain ⟨k, rfl⟩ : ∃ k, fuel' = k + 1 :=
        ⟨fuel' - 1, by have := List.length_pos.mpr hp; omega⟩
      rw [Write.loop_last S k w p n ops hp hh hi, if_pos (by simp [he])]
    · intro w p n ops hp hh hi he fuel' hf'
      obtain ⟨k, rfl⟩ : ∃ k, fuel' = k + 1 :=
        ⟨fuel' - 1, by have := List.length_pos.mpr hp; omega⟩
      rw [Write.loop_last S k w p n ops hp hh hi, if_neg (by rw [Option.isNone_iff_eq_none, ← Option.not_isSome_iff_eq_none]; simp [he])]
    · intro w p n ops i hp hh hi he fuel' hf'
      obtain ⟨k, rfl⟩ : ∃ k, fuel' = k + 1 :=
        ⟨fuel' - 1, by have := List.length_pos.mpr hp; omega⟩
      rw [Write.loop_seg S k w p n ops i hp hh hi, if_pos he]
    · intro w p n ops i r hp hh hi he ih fuel' hf'
      obtain ⟨k, rfl⟩ : ∃ k, fuel' = k + 1 :=
        ⟨fuel' - 1, by have := List.length_pos.mpr hp; omega⟩
      rw [Write.loop_seg S k w p n ops i hp hh hi, if_neg (by simp [he])]
      apply ih k
      have := IndexByte_lt hi
      simp only [List.length_drop]
      omega
  exact key fuel hf

/-- Accounting: over a run of the loop, `written` grows by the counts of all sink writes
logged during the run, `n` grows by the counts of the content writes, the prefix is
unchanged, and the log only grows at its end. -/
theorem Write.loop_account {σ ε : Type} (S : WriteFlusher σ ε) (fuel : Nat) (w : Writer σ)
    (p : List UInt8) (n : Int) (ops : List (SinkOp ε)) (hf : p.length ≤ fuel) :
    ∃ more : List (SinkOp ε),
      (Write.loop S fuel w p n ops).ops = ops ++ more ∧
      (Write.loop S fuel w p n ops).self.written = w.written + opsWritten more ∧
      (Write.loop S fuel w p n ops).n = n + opsContent more ∧
      (Write.loop S fuel w p n ops).self.pfx = w.pfx := by
  refine Write.loop_induct S
    (fun w p n ops r => ∃ more : List (SinkOp ε), r.ops = ops ++ more ∧
      r.self.written = w.written + opsWritten more ∧ r.n = n + opsContent more ∧
      r.self.pfx = w.pfx)
    ?_ ?_ ?_ ?_ ?_ ?_ ?_ fuel w p n ops hf
  · intro w n ops
    exact ⟨_, rfl, by simp [opsWritten], by simp [opsContent], rfl⟩
  · intro w p n ops _ _ _
    exact ⟨_, rfl, by simp [opsWritten], by simp [opsContent], rfl⟩
  · intro w p n ops r _ _ _ ih
    obtain ⟨more, h1, h2, h3, h4⟩ := ih
    refine ⟨_ :: more, by simpa using h1, ?_, ?_, h4⟩
    · simp only [opsWritten, h2]; ring
    · simp only [opsContent, h3]
  · intro w p n ops _ _ _ _
    exact ⟨_, by simp only [List.append_assoc]; rfl, by simp [opsWritten], by simp [opsContent], rfl⟩
  · intro w p n ops _ _ _ _
    exact ⟨_, rfl, by simp [opsWritten], by simp [opsContent], rfl⟩
  · intro w p n ops i _ _ _ _
    exact ⟨_, rfl, by simp [opsWritten], by simp [opsContent], rfl⟩
  · intro w p n ops i r _ _ _ _ ih
    obtain ⟨more, h1, h2, h3, h4⟩ := ih
    refine ⟨_ :: more, by simpa using h1, ?_, ?_, h4⟩
    · simp only [opsWritten, h2]; ring
    · simp only [opsContent, h3]; ring

/-- On a sink that accepts every byte, a run of the loop consumes all of `p`, leaves the
line-start flag as `headAfter`, and adds the length of `render` to `written`; the returned
error is that of the final flush. -/
theorem Write.loop_full {σ ε : Type} (S : WriteFlusher σ ε) (hS : SinkFull S) (fuel : Nat)
    (w : Writer σ) (p : List UInt8) (n : Int) (ops : List (SinkOp ε)) (hf : p.length ≤ fuel) :
    (Write.loop S fuel w p n ops).n = n + p.length ∧
    (Write.loop S fuel w p n ops).self.head = headAfter w.head p ∧
    (Write.loop S fuel w p n ops).self.written
      = w.written + ((render w.pfx w.head p).length : Int) ∧
    (FlushOk S → (Write.loop S fuel w p n ops).err = none) := by
  refine Write.loop_induct S
    (fun w p n ops r => r.n = n + p.length ∧ r.self.head = headAfter w.head p ∧
      r.self.written = w.written + ((render w.pfx w.head p).length : Int) ∧
      (FlushOk S → r.err = none))
    ?_ ?_ ?_ ?_ ?_ ?_ ?_ fuel w p n ops hf
  · intro w n ops
    exact ⟨by simp, by simp [headAfter], by simp [render], fun hF => hF _⟩
  · intro w p n ops _ _ he
    rw [(hS _ _).2] at he
    simp at he
  · intro w p n ops r hp hh _ ih
    obtain ⟨h1, h2, h3, h4⟩ := ih
    refine ⟨h1, ?_, ?_, h4⟩
    · rw [h2]; exact headAfter_of_ne_nil _ _ hp
    · rw [h3, hh, render_head_true _ hp]
      simp only [(hS _ _).1, List.length_append, Nat.cast_add]
      ring
  · intro w p n ops hp hh hi _
    refine ⟨?_, ?_, ?_, fun hF => hF _⟩
    · simp [(hS _ _).1]
    · simp [hh, headAfter_last false hp hi]
    · simp [hh, render_last _ hi, (hS _ _).1]
  · intro w p n ops _ _ _ he
    rw [(hS _ _).2] at he
    simp at he
  · intro w p n ops i _ _ _ he
    rw [(hS _ _).2] at he
    simp at he
  · intro w p n ops i r hp hh hi _ ih
    obtain ⟨h1, h2, h3, h4⟩ := ih
    have hlt := IndexByte_lt hi
    refine ⟨?_, ?_, ?_, h4⟩
    · rw [h1, (hS _ _).1]
      simp only [List.length_take, List.length_drop]
      have : min (i + 1) p.length = i + 1 := by omega
      rw [this]
      push_cast
      omega
    · rw [h2, hh]; exact (headAfter_seg false hi).symm
    · rw [h3, hh, render_seg _ hi]
      simp only [(hS _ _).1, List.length_append, Nat.cast_add]
      ring

/-- On a sink that accepts every byte and stores what it is given, a run of the loop
appends `render` to the bytes on the sink. -/
theorem Write.loop_out {σ ε : Type} (S : WriteFlusher σ ε) (out : σ → List UInt8)
    (hS : SinkFull S) (hO : SinkStores S out) (fuel : Nat)
    (w : Writer σ) (p : List UInt8) (n : Int) (ops : List (SinkOp ε)) (hf : p.length ≤ fuel) :
    out (Write.loop S fuel w p n ops).self.w = out w.w ++ render w.pfx w.head p := by
  refine Write.loop_induct S
    (fun w p _ _ r => out r.self.w = out w.w ++ render w.pfx w.head p)
    ?_ ?_ ?_ ?_ ?_ ?_ ?_ fuel w p n ops hf
  · intro w n ops
    simp [hO.2, render]
  · intro w p n ops _ _ he
    rw [(hS _ _).2] at he
    simp at he
  · intro w p n ops r hp hh _ ih
    rw [ih, hh, render_head_true _ hp]
    simp [hO.1]
  · intro w p n ops hp hh hi _
    simp [hO.1, hO.2, hh, render_last _ hi]
  · intro w p n ops _ _ _ he
    rw [(hS _ _).2] at he
    simp at he
  · intro w p n ops i _ _ _ he
    rw [(hS _ _).2] at he
    simp at he
  · intro w p n ops i r hp hh hi _ ih
    rw [ih, hh, render_seg _ hi]
    simp [hO.1]

/-- With sink counts between 0 and the number of bytes offered, the count returned by the
loop grows by at least 0 and at most `len(p)`. -/
theorem Write.loop_bounded {σ ε : Type} (S : WriteFlusher σ ε) (hS : SinkBounded S)
    (fuel : Nat) (w : Writer σ) (p : List UInt8) (n : Int) (ops : List (SinkOp ε))
    (hf : p.length ≤ fuel) :
    n ≤ (Write.loop S fuel w p n ops).n ∧ (Write.loop S fuel w p n ops).n ≤ n + p.length := by
  refine Write.loop_induct S
    (fun _ p n _ r => n ≤ r.n ∧ r.n ≤ n + p.length)
    ?_ ?_ ?_ ?_ ?_ ?_ ?_ fuel w p n ops hf
  · intro w n ops; simp
  · intro w p n ops _ _ _
    constructor <;> simp
  · intro w p n ops r _ _ _ ih; exact ih
  · intro w p n ops _ _ _ _
    have := hS w.w p
    constructor <;> simp <;> omega
  · intro w p n ops _ _ _ _
    have := hS w.w p
    constructor <;> simp <;> omega
  · intro w p n ops i _ _ hi _
    have := hS w.w (p.take (i + 1))
    have hlt := IndexByte_lt hi
    simp only [List.length_take] at this
    constructor <;> simp <;> omega
  · intro w p n ops i r _ _ hi _ ih
    have := hS w.w (p.take (i + 1))
    have hlt := IndexByte_lt hi
    simp only [List.length_take] at this
    simp only [List.length_drop] at ih
    constructor <;> omega

/-- On a sink that returns `nil` only for complete writes, a run of the loop that returns
`nil` has consumed all of `p`, and every write it logged was complete. -/
theorem Write.loop_honest {σ ε : Type} (S : WriteFlusher σ ε) (hS : SinkHonest S)
    (fuel : Nat) (w : Writer σ) (p : List UInt8) (n : Int) (ops : List (SinkOp ε))
    (hf : p.length ≤ fuel) (he : (Write.loop S fuel w p n ops).err = none) :
    (Write.loop S fuel w p n ops).n = n + p.length ∧
    (opsAllFull ops → opsAllFull (Write.loop S fuel w p n ops).ops) := by
  revert he
  refine Write.loop_induct S
    (fun _ p n ops r => r.err = none → r.n = n + p.length ∧ (opsAllFull ops → opsAllFull r.ops))
    ?_ ?_ ?_ ?_ ?_ ?_ ?_ fuel w p n ops hf
  · intro w n ops _
    refine ⟨by simp, fun h => ?_⟩
    simp [opsAllFull_append, opsAllFull, h]
  · intro w p n ops _ _ he h
    simp only at h
    rw [h] at he
    simp at he
  · intro w p n ops r _ _ he ih h
    obtain ⟨h1, h2⟩ := ih h
    refine ⟨h1, fun h0 => h2 ?_⟩
    simp [opsAllFull_append, opsAllFull, h0, hS _ _ he]
  · intro w p n ops _ _ _ he _
    refine ⟨by simp [hS _ _ he], fun h0 => ?_⟩
    simp [opsAllFull_append, opsAllFull, h0, hS _ _ he]
  · intro w p n ops _ _ _ he h
    simp only at h
    rw [h] at he
    simp at he
  · intro w p n ops i _ _ _ he h
    simp only at h
    rw [h] at he
    simp at he
  · intro w p n ops i r _ _ hi he ih h
    obtain ⟨h1, h2⟩ := ih h
    have hlt := IndexByte_lt hi
    have hc := hS _ _ he
    refine ⟨?_, fun h0 => h2 ?_⟩
    · rw [h1, hc]
      simp only [List.length_take, List.length_drop]
      have : min (i + 1) p.length = i + 1 := by omega
      rw [this]
      push_cast
      omega
    · simp [opsAllFull_append, opsAllFull, h0, hc]

/-! ## From the loop to `Write` -/

theorem Write_nil {σ ε : Type} (S : WriteFlusher σ ε) (w : Writer σ) :
    Write S w [] = ⟨0, none, w, []⟩ := by
  simp [Write]

theorem Write_of_ne_nil {σ ε : Type} (S : WriteFlusher σ ε) (w : Writer σ) {p : List UInt8}
    (hp : p ≠ []) : Write S w p = Write.loop S p.length w p 0 [] := by
  have : p.length ≠ 0 := fun h => hp (List.length_eq_zero.mp h)
  simp [Write, this]

theorem Write_account {σ ε : Type} (S : WriteFlusher σ ε) (w : Writer σ) (p : List UInt8) :
    (Write S w p).self.written = w.written + opsWritten (Write S w p).ops ∧
    (Write S w p).n = opsContent (Write S w p).ops ∧
    (Write S w p).self.pfx = w.pfx := by
  by_cases hp : p = []
  · subst hp; simp [Write_nil, opsWritten, opsContent]
  · rw [Write_of_ne_nil S w hp]
    obtain ⟨more, h1, h2, h3, h4⟩ := Write.loop_account S p.length w p 0 [] (le_refl _)
    simp only [List.nil_append] at h1
    rw [h1, h2, h3]
    simp [h4]

theorem Write_full {σ ε : Type} (S : WriteFlusher σ ε) (hS : SinkFull S) (w : Writer σ)
    (p : List UInt8) :
    (Write S w p).n = p.length ∧
    (Write S w p).self.head = headAfter w.head p ∧
    (Write S w p).self.written = w.written + ((render w.pfx w.head p).length : Int) ∧
    (FlushOk S → (Write S w p).err = none) := by
  by_cases hp : p = []
  · subst hp; simp [Write_nil, headAfter, render]
  · rw [Write_of_ne_nil S w hp]
    simpa using Write.loop_full S hS p.length w p 0 [] (le_refl _)

theorem Write_out {σ ε : Type} (S : WriteFlusher σ ε) (out : σ → List UInt8)
    (hS : SinkFull S) (hO : SinkStores S out) (w : Writer σ) (p : List UInt8) :
    out (Write S w p).self.w = out w.w ++ render w.pfx w.head p := by
  by_cases hp : p = []
  · subst hp; simp [Write_nil, render]
  · rw [Write_of_ne_nil S w hp]
    exact Write.loop_out S out hS hO p.length w p 0 [] (le_refl _)

theorem nopFlusher_full (ε : Type) : SinkFull (nopFlusher ε) := by
  intro s q; exact ⟨rfl, rfl⟩

theorem nopFlusher_flushOk (ε : Type) : FlushOk (nopFlusher ε) := by
  intro s; rfl

theorem nopFlusher_stores (ε : Type) : SinkStores (nopFlusher ε) id :=
  ⟨fun _ _ => rfl, fun _ => rfl⟩

/-! ## The specification's segments -/

theorem segments_flatten (p : List UInt8) : (segments p).flatten = p := by
  induction p with
  | nil => rfl
  | cons b bs ih =>
    simp only [segments]
    split
    · simp [ih]
    · cases hs : segments bs with
      | nil => rw [hs] at ih; simp at ih; simp [← ih]
      | cons s ss => rw [hs] at ih; simp at ih; simp [← ih]

theorem segments_ne_nil (p : List UInt8) : ∀ s ∈ segments p, s ≠ [] := by
  induction p with
  | nil => simp [segments]
  | cons b bs ih =>
    simp only [segments]
    split
    · intro s hs
      simp only [List.mem_cons] at hs
      rcases hs with rfl | hs
      · simp
      · exact ih s hs
    · cases hs : segments bs with
      | nil => simp
      | cons s ss =>
        rw [hs] at ih
        intro t ht
        simp only [List.mem_cons] at ht
        rcases ht with rfl | ht
        · simp
        · exact ih t (by simp [ht])

theorem segments_interior (p : List UInt8) : ∀ s ∈ segments p, (10 : UInt8) ∉ s.dropLast := by
  induction p with
  | nil => simp [segments]
  | cons b bs ih =>
    simp only [segments]
    split
    · intro s hs
      simp only [List.mem_cons] at hs
      rcases hs with rfl | hs
      · simp
      · exact ih s hs
    · rename_i hb
      cases hs : segments bs with
      | nil => simp
      | cons s ss =>
        rw [hs] at ih
        have hne := segments_ne_nil bs s (by simp [hs])
        intro t ht
        simp only [List.mem_cons] at ht
        rcases ht with rfl | ht
        · cases s with
          | nil => exact absurd rfl hne
          | cons c cs =>
            have := ih (c :: cs) (by simp)
            simp only [List.dropLast_cons₂, List.mem_cons, not_or]
            exact ⟨fun h => hb h.symm, this⟩
        · exact ih t (by simp [ht])

theorem segments_terminated (p : List UInt8) :
    ∀ s ∈ (segments p).dropLast, s.getLast? = some 10 := by
  induction p with
  | nil => simp [segments]
  | cons b bs ih =>
    simp only [segments]
    split
    · rename_i hb
      cases hs : segments bs with
      | nil => simp
      | cons s ss =>
        rw [hs] at ih
        intro t ht
        simp only [List.dropLast_cons₂, List.mem_cons] at ht
        rcases ht with rfl | ht
        · simp [hb]
        · exact ih t ht
    · cases hs : segments bs with
      | nil => simp
      | cons s ss =>
        rw [hs] at ih
        have hne := segments_ne_nil bs s (by simp [hs])
        cases ss with
        | nil => simp
        | cons s2 ss2 =>
          intro t ht
          simp only [List.dropLast_cons₂, List.mem_cons] at ht ih
          rcases ht with rfl | ht
          · cases s with
            | nil => exact absurd rfl hne
            | cons c cs =>
              have := ih (c :: cs) (Or.inl rfl)
              simpa [List.getLast?_cons_cons] using this
          · exact ih t (Or.inr ht)

theorem render_eq_segments (pfx : List UInt8) (h : Bool) (p : List UInt8) :
    render pfx h p =
      match segments p with
      | [] => []
      | s :: ss => (if h then pfx else []) ++ s ++ ss.flatMap (fun seg => pfx ++ seg) := by
  induction p generalizing h with
  | nil => rfl
  | cons b bs ih =>
    by_cases hb : b = 10
    · have := ih true
      simp only [render, segments, hb, if_true, decide_True]
      rw [this]
      cases segments bs <;> simp
    · have := ih false
      simp only [render, segments, hb, if_false, decide_False]
      rw [this]
      cases segments bs <;> simp

theorem render_true_eq_expected (pfx p : List UInt8) : render pfx true p = expected pfx p := by
  rw [render_eq_segments, expected]
  cases segments p <;> simp

/-! ## Facts about `strip`, `lineCount` and sequences of calls -/

theorem stripFrom_drop (k : Nat) (xs ys : List UInt8) :
    stripFrom k xs.length (xs ++ ys) = stripFrom k 0 ys := by
  induction xs with
  | nil => rfl
  | cons x xs ih => simpa [stripFrom] using ih

theorem stripFrom_render (pfx : List UInt8) (h : Bool) (p : List UInt8) :
    stripFrom pfx.length (if h then pfx.length else 0) (render pfx h p) = p := by
  induction p generalizing h with
  | nil => cases h <;> simp [render, stripFrom]
  | cons b bs ih =>
    have step : stripFrom pfx.length 0 (b :: render pfx (decide (b = 10)) bs) = b :: bs := by
      have := ih (decide (b = 10))
      simp only [stripFrom]
      by_cases hb : b = 10
      · simp only [hb, decide_True, if_true] at this ⊢
        rw [this]
      · simp only [hb, decide_False, if_false] at this ⊢
        simp only [Bool.false_eq_true, if_false] at this
        rw [this]
    cases h with
    | true =>
      simp only [render, if_true]
      rw [stripFrom_drop]
      exact step
    | false =>
      simpa [render] using step

theorem render_length (pfx : List UInt8) (h : Bool) (p : List UInt8) :
    (render pfx h p).length + pfx.length * (if headAfter h p then 1 else 0)
      = p.length + pfx.length * (p.count 10 + (if h then 1 else 0)) := by
  induction p generalizing h with
  | nil => simp [render, headAfter]
  | cons b bs ih =>
    have := ih (decide (b = 10))
    by_cases hb : b = 10
    · subst hb
      simp only [decide_True, if_true] at this
      cases h <;> simp [render, headAfter, List.count_cons] at this ⊢ <;> nlinarith
    · have hb' : ¬ (10 : UInt8) = b := fun e => hb e.symm
      simp only [hb, decide_False, Bool.false_eq_true, if_false] at this
      cases h <;> simp [render, headAfter, List.count_cons, hb, hb'] at this ⊢ <;> nlinarith

theorem render_true_length (pfx p : List UInt8) :
    (render pfx true p).length = p.length + pfx.length * lineCount p := by
  have h := render_length pfx true p
  by_cases hp : p = []
  · subst hp; simp [render, lineCount]
  · rw [headAfter_eq_getLast true hp] at h
    simp only [lineCount]
    by_cases hl : p.getLast? = some 10
    · simp only [hl, decide_True, if_true] at h
      simp [hp, hl]
      simp only [mul_add, mul_one] at h
      omega
    · simp only [hl, decide_False, Bool.false_eq_true, if_false, if_true] at h
      simp [hp, hl]
      simpa using h

theorem WriteAll_full {σ ε : Type} (S : WriteFlusher σ ε) (out : σ → List UInt8)
    (hS : SinkFull S) (hO : SinkStores S out) (w : Writer σ) (chunks : List (List UInt8)) :
    out (WriteAll S w chunks).1.w = out w.w ++ render w.pfx w.head chunks.flatten ∧
    (WriteAll S w chunks).1.written
      = w.written + ((render w.pfx w.head chunks.flatten).length : Int) ∧
    (WriteAll S w chunks).1.head = headAfter w.head chunks.flatten ∧
    (WriteAll S w chunks).1.pfx = w.pfx := by
  induction chunks generalizing w with
  | nil => simp [WriteAll, render, headAfter]
  | cons c cs ih =>
    obtain ⟨h1, h2, h3, h4⟩ := ih (Write S w c).self
    obtain ⟨-, g2, g3, -⟩ := Write_full S hS w c
    have g4 := (Write_account S w c).2.2
    have g1 := Write_out S out hS hO w c
    simp only [WriteAll, List.flatten_cons, render_append, headAfter_append]
    rw [h1, h2, h3, h4, g1, g2, g3, g4]
    refine ⟨by simp, ?_, rfl, rfl⟩
    simp only [List.length_append, Nat.cast_add]
    ring

theorem WriteAll_account {σ ε : Type} (S : WriteFlusher σ ε) (w : Writer σ)
    (inputs : List (List UInt8)) :
    (WriteAll S w inputs).1.written = w.written + opsWritten (WriteAll S w inputs).2 := by
  induction inputs generalizing w with
  | nil => simp [WriteAll, opsWritten]
  | cons c cs ih =>
    simp only [WriteAll, opsWritten_append]
    rw [ih, (Write_account S w c).1]
    ring

/-! ## The log is what the sink answered -/

theorem replay_append {σ ε : Type} [DecidableEq ε] (S : WriteFlusher σ ε) (s : σ)
    (a b : List (SinkOp ε)) :
    replay S s (a ++ b) = (replay S s a).bind (fun s' => replay S s' b) := by
  induction a generalizing s with
  | nil => simp [replay]
  | cons x xs ih =>
    cases x <;> simp only [List.cons_append, replay] <;> split <;> simp [ih]

/-- Replaying the log of a run of the loop against the sink reproduces every logged answer
and ends in the sink state of the returned writer. -/
theorem Write.loop_replay {σ ε : Type} [DecidableEq ε] (S : WriteFlusher σ ε) (fuel : Nat)
    (w : Writer σ) (p : List UInt8) (n : Int) (ops : List (SinkOp ε)) (hf : p.length ≤ fuel)
    (s0 : σ) (h0 : replay S s0 ops = some w.w) :
    replay S s0 (Write.loop S fuel w p n ops).ops = some (Write.loop S fuel w p n ops).self.w := by
  revert h0
  refine Write.loop_induct S
    (fun w _ _ ops r => replay S s0 ops = some w.w → replay S s0 r.ops = some r.self.w)
    ?_ ?_ ?_ ?_ ?_ ?_ ?_ fuel w p n ops hf
  · intro w n ops h0
    simp [replay_append, h0, replay]
  · intro w p n ops _ _ _ h0
    simp [replay_append, h0, replay]
  · intro w p n ops r _ _ _ ih h0
    apply ih
    simp [replay_append, h0, replay]
  · intro w p n ops _ _ _ _ h0
    simp [replay_append, h0, replay]
  · intro w p n ops _ _ _ _ h0
    simp [replay_append, h0, replay]
  · intro w p n ops i _ _ _ _ h0
    simp [replay_append, h0, replay]
  · intro w p n ops i r _ _ _ _ ih h0
    apply ih
    simp [replay_append, h0, replay]

/-- Replaying the log of a `Write` call against the sink, from the sink state before the
call, reproduces every logged answer and ends in the sink state after the call. -/
theorem Write_replay {σ ε : Type} [DecidableEq ε] (S : WriteFlusher σ ε) (w : Writer σ)
    (p : List UInt8) : replay S w.w (Write S w p).ops = some (Write S w p).self.w := by
  by_cases hp : p = []
  · subst hp; simp [Write_nil, replay]
  · rw [Write_of_ne_nil S w hp]
    exact Write.loop_replay S p.length w p 0 [] (le_refl _) w.w (by simp [replay])

/-! ## Statements of the specification -/

/-- C1: on a sink that accepts every byte, one `Write(p)` on a freshly constructed writer
adds to the sink exactly the prefix followed by the segment, for every segment of `p` in
order, where the segments cut `p` just after each `'\n'`. -/
theorem C1_fresh_write_output {σ ε : Type} (S : WriteFlusher σ ε) (out : σ → List UInt8)
    (hS : SinkFull S) (hO : SinkStores S out) (s : σ) (pfx p : List UInt8) :
    out (Write S (NewSize s pfx) p).self.w
      = out s ++ (segments p).flatMap (fun seg => pfx ++ seg) := by
  rw [Write_out S out hS hO]
  simp only [NewSize]
  rw [render_true_eq_expected, expected]

theorem C1_fresh_write_output_witness :
    SinkFull (nopFlusher Unit) ∧ SinkStores (nopFlusher Unit) id ∧
    id (Write (nopFlusher Unit) (NewSize [] [35, 32]) [10, 10, 67, 10, 10]).self.w
      = id [] ++ (segments [10, 10, 67, 10, 10]).flatMap (fun seg => [35, 32] ++ seg) :=
  ⟨nopFlusher_full Unit, nopFlusher_stores Unit,
    C1_fresh_write_output (nopFlusher Unit) id (nopFlusher_full Unit) (nopFlusher_stores Unit)
      [] [35, 32] [10, 10, 67, 10, 10]⟩

/-- C2: on a sink that accepts every byte, `Write(a)` followed by `Write(b)` leaves the same
bytes on the sink, the same `Written()` and the same line-start flag as one `Write(a ++ b)`
from the same writer; and so does any sequence of `Write` calls compared with one `Write`
of the concatenation of its inputs. -/
theorem C2_chunk_invariance {σ ε : Type} (S : WriteFlusher σ ε) (out : σ → List UInt8)
    (hS : SinkFull S) (hO : SinkStores S out) (w : Writer σ) :
    (∀ a b : List UInt8,
      out (Write S (Write S w a).self b).self.w = out (Write S w (a ++ b)).self.w ∧
      (Write S (Write S w a).self b).self.Written = (Write S w (a ++ b)).self.Written ∧
      (Write S (Write S w a).self b).self.head = (Write S w (a ++ b)).self.head) ∧
    (∀ chunks : List (List UInt8),
      out (WriteAll S w chunks).1.w = out (Write S w chunks.flatten).self.w ∧
      (WriteAll S w chunks).1.Written = (Write S w chunks.flatten).self.Written ∧
      (WriteAll S w chunks).1.head = (Write S w chunks.flatten).self.head) := by
  have all : ∀ chunks : List (List UInt8),
      out (WriteAll S w chunks).1.w = out (Write S w chunks.flatten).self.w ∧
      (WriteAll S w chunks).1.Written = (Write S w chunks.flatten).self.Written ∧
      (WriteAll S w chunks).1.head = (Write S w chunks.flatten).self.head := by
    intro chunks
    obtain ⟨h1, h2, h3, -⟩ := WriteAll_full S out hS hO w chunks
    obtain ⟨-, g3, g2, -⟩ := Write_full S hS w chunks.flatten
    have g1 := Write_out S out hS hO w chunks.flatten
    exact ⟨h1.trans g1.symm, h2.trans g2.symm, h3.trans g3.symm⟩
  refine ⟨fun a b => ?_, all⟩
  simpa [WriteAll] using all [a, b]

theorem C2_chunk_invariance_witness :
    SinkFull (nopFlusher Unit) ∧ SinkStores (nopFlusher Unit) id ∧
    id (Write (nopFlusher Unit) (Write (nopFlusher Unit) (NewSize [] [62]) [65]).self
          [66, 10, 67]).self.w
      = id (Write (nopFlusher Unit) (NewSize [] [62]) ([65] ++ [66, 10, 67])).self.w ∧
    (WriteAll (nopFlusher Unit) (NewSize [] [62]) [[65, 10], [], [10, 66], [67]]).1.Written
      = (Write (nopFlusher Unit) (NewSize [] [62])
          [[65, 10], [], [10, 66], [67]].flatten).self.Written :=
  ⟨nopFlusher_full Unit, nopFlusher_stores Unit,
    ((C2_chunk_invariance (nopFlusher Unit) id (nopFlusher_full Unit) (nopFlusher_stores Unit)
      (NewSize [] [62])).1 [65] [66, 10, 67]).1,
    ((C2_chunk_invariance (nopFlusher Unit) id (nopFlusher_full Unit) (nopFlusher_stores Unit)
      (NewSize [] [62])).2 [[65, 10], [], [10, 66], [67]]).2.1⟩

/-- C3: line content and terminators are untouched. For every prefix (also one containing
`'\n'`) and every input `p`, stripping `len(prefix)` bytes before every line of the bytes
that `Write(p)` adds to the sink, on a fresh writer over a sink that accepts every byte,
gives back `p`. -/
theorem C3_strip_output {σ ε : Type} (S : WriteFlusher σ ε) (out : σ → List UInt8)
    (hS : SinkFull S) (hO : SinkStores S out) (s : σ) (pfx p : List UInt8) :
    strip pfx.length ((out (Write S (NewSize s pfx) p).self.w).drop (out s).length) = p := by
  rw [Write_out S out hS hO]
  simp only [NewSize, List.drop_left, strip]
  simpa using stripFrom_render pfx true p

theorem C3_strip_output_witness :
    SinkFull (nopFlusher Unit) ∧ SinkStores (nopFlusher Unit) id ∧
    strip [35, 10, 32].length
      ((id (Write (nopFlusher Unit) (NewSize [] [35, 10, 32]) [10, 65, 10, 10, 66]).self.w).drop
        (id ([] : List UInt8)).length)
      = [10, 65, 10, 10, 66] :=
  ⟨nopFlusher_full Unit, nopFlusher_stores Unit,
    C3_strip_output (nopFlusher Unit) id (nopFlusher_full Unit) (nopFlusher_stores Unit)
      [] [35, 10, 32] [10, 65, 10, 10, 66]⟩

/-- C4: for every writer state and input `p`, if every sink write accepts all the bytes
offered and every flush succeeds, `Write(p)` returns `(len(p), nil)`. -/
theorem C4_returns_len {σ ε : Type} (S : WriteFlusher σ ε) (hS : SinkFull S) (hF : FlushOk S)
    (w : Writer σ) (p : List UInt8) :
    (Write S w p).n = p.length ∧ (Write S w p).err = none := by
  obtain ⟨h1, -, -, h4⟩ := Write_full S hS w p
  exact ⟨h1, h4 hF⟩

theorem C4_returns_len_witness :
    SinkFull (nopFlusher Unit) ∧ FlushOk (nopFlusher Unit) ∧
    (Write (nopFlusher Unit) ⟨[1, 2], false, [35, 32], 7⟩ [65, 10, 66]).n
      = ([65, 10, 66] : List UInt8).length ∧
    (Write (nopFlusher Unit) ⟨[1, 2], false, [35, 32], 7⟩ [65, 10, 66]).err = none :=
  ⟨nopFlusher_full Unit, nopFlusher_flushOk Unit,
    C4_returns_len (nopFlusher Unit) (nopFlusher_full Unit) (nopFlusher_flushOk Unit)
      ⟨[1, 2], false, [35, 32], 7⟩ [65, 10, 66]⟩

/-- C5: `Write` of an empty input is a no-op in every writer state and for every sink: it
returns `(0, nil)`, makes no sink call, and leaves the writer, with its sink state, its
line-start flag and `Written()`, unchanged. -/
theorem C5_empty_noop {σ ε : Type} (S : WriteFlusher σ ε) (w : Writer σ) :
    (Write S w []).n = 0 ∧ (Write S w []).err = none ∧ (Write S w []).ops = [] ∧
    (Write S w []).self = w ∧ (Write S w []).self.head = w.head ∧
    (Write S w []).self.Written = w.Written := by
  simp [Write_nil]

/-- C6: for every sink and every sequence of `Write` calls on a freshly constructed writer,
`Written()` is the sum of the counts the sink returned from all sink writes made by these
calls, prefix writes and content writes alike; from any writer state, `Written()` grows by
that sum. -/
theorem C6_written_is_sum {σ ε : Type} (S : WriteFlusher σ ε) (s : σ) (pfx : List UInt8)
    (inputs : List (List UInt8)) :
    (WriteAll S (NewSize s pfx) inputs).1.Written
      = opsWritten (WriteAll S (NewSize s pfx) inputs).2 ∧
    ∀ w : Writer σ,
      (WriteAll S w inputs).1.Written = w.Written + opsWritten (WriteAll S w inputs).2 := by
  refine ⟨?_, fun w => WriteAll_account S w inputs⟩
  have := WriteAll_account S (NewSize s pfx) inputs
  simpa [NewSize, Writer.Written] using this

/-- C7: for a fresh writer over a sink that accepts every byte, after `Write(p)` the value
of `Written()` is `len(p) + len(prefix) * L`, with `L` the number of `'\n'` in `p` plus one
when `p` is non-empty and does not end in `'\n'`; this is the number of bytes added to the
sink. -/
theorem C7_written_formula {σ ε : Type} (S : WriteFlusher σ ε) (out : σ → List UInt8)
    (hS : SinkFull S) (hO : SinkStores S out) (s : σ) (pfx p : List UInt8) :
    (Write S (NewSize s pfx) p).self.Written
      = (p.length : Int) + (pfx.length : Int) * (lineCount p : Int) ∧
    ((out (Write S (NewSize s pfx) p).self.w).length : Int)
      = ((out s).length : Int) + (Write S (NewSize s pfx) p).self.Written := by
  obtain ⟨-, -, h3, -⟩ := Write_full S hS (NewSize s pfx) p
  have h5 := Write_out S out hS hO (NewSize s pfx) p
  simp only [NewSize] at h3 h5 ⊢
  simp only [Writer.Written]
  rw [h3, h5, render_true_length]
  constructor
  · push_cast; ring
  · simp only [List.length_append, render_true_length]
    push_cast; ring

theorem C7_written_formula_witness :
    SinkFull (nopFlusher Unit) ∧ SinkStores (nopFlusher Unit) id ∧
    (Write (nopFlusher Unit) (NewSize [] [35, 32]) [10, 10, 67, 10, 68]).self.Written
      = (([10, 10, 67, 10, 68] : List UInt8).length : Int)
        + (([35, 32] : List UInt8).length : Int) * (lineCount [10, 10, 67, 10, 68] : Int) ∧
    ((id (Write (nopFlusher Unit) (NewSize [] [35, 32]) [10, 10, 67, 10, 68]).self.w).length : Int)
      = ((id ([] : List UInt8)).length : Int)
        + (Write (nopFlusher Unit) (NewSize [] [35, 32]) [10, 10, 67, 10, 68]).self.Written :=
  ⟨nopFlusher_full Unit, nopFlusher_stores Unit,
    C7_written_formula (nopFlusher Unit) id (nopFlusher_full Unit) (nopFlusher_stores Unit)
      [] [35, 32] [10, 10, 67, 10, 68]⟩

theorem limitSink_bounded (k : Nat) : SinkBounded (limitSink k) := by
  intro s q
  simp only [limitSink, List.length_take]
  omega

theorem limitSink_honest (k : Nat) : SinkHonest (limitSink k) := by
  intro s q h
  simp only [limitSink] at h ⊢
  split at h
  · rename_i hk
    simp only [List.length_take]
    have : min k q.length = q.length := by omega
    rw [this]
  · simp at h

theorem nopFlusher_honest (ε : Type) : SinkHonest (nopFlusher ε) := by
  intro s q _; rfl

/-- C8: for every writer state and input `p`, if each sink write returns a count between 0
and the number of bytes it was offered, the count `n` returned by `Write(p)` satisfies
`0 <= n <= len(p)`, whether or not the call fails. -/
theorem C8_count_bounds {σ ε : Type} (S : WriteFlusher σ ε) (hS : SinkBounded S)
    (w : Writer σ) (p : List UInt8) :
    0 ≤ (Write S w p).n ∧ (Write S w p).n ≤ p.length := by
  by_cases hp : p = []
  · subst hp; simp [Write_nil]
  · rw [Write_of_ne_nil S w hp]
    simpa using Write.loop_bounded S hS p.length w p 0 [] (le_refl _)

theorem C8_count_bounds_witness :
    SinkBounded (limitSink 2) ∧
    0 ≤ (Write (limitSink 2) (NewSize [] [35]) [65, 10, 66, 67, 68, 10]).n ∧
    (Write (limitSink 2) (NewSize [] [35]) [65, 10, 66, 67, 68, 10]).n
      ≤ ([65, 10, 66, 67, 68, 10] : List UInt8).length :=
  ⟨limitSink_bounded 2,
    C8_count_bounds (limitSink 2) (limitSink_bounded 2) (NewSize [] [35])
      [65, 10, 66, 67, 68, 10]⟩

/-- C9: for every sink and input `p`, the count `n` returned by `Write(p)`, also when it
returns an error, is the sum of the counts the sink returned for the content writes of the
call; the counts returned for prefix writes are not part of it. -/
theorem C9_count_is_content {σ ε : Type} (S : WriteFlusher σ ε) (w : Writer σ)
    (p : List UInt8) : (Write S w p).n = opsContent (Write S w p).ops :=
  (Write_account S w p).2.1

/-! ## Errors in the log -/

theorem firstErr_append_clean {ε : Type} (a b : List (SinkOp ε))
    (ha : ∀ op ∈ a, opErr op = none) : firstErr (a ++ b) = firstErr b := by
  induction a with
  | nil => rfl
  | cons x xs ih =>
    have hx : opErr x = none := ha x (by simp)
    simp only [List.cons_append, firstErr, hx]
    exact ih (fun op hop => ha op (by simp [hop]))

theorem firstErr_clean {ε : Type} (a : List (SinkOp ε)) (ha : ∀ op ∈ a, opErr op = none) :
    firstErr a = none := by
  have := firstErr_append_clean a [] ha
  simpa [firstErr] using this

/-- Over a run of the loop the log grows by calls that all returned `nil`, except possibly
the last one; the error returned by the loop is the one of that last call. -/
theorem Write.loop_errs {σ ε : Type} (S : WriteFlusher σ ε) (fuel : Nat) (w : Writer σ)
    (p : List UInt8) (n : Int) (ops : List (SinkOp ε)) (hf : p.length ≤ fuel) :
    ∃ (init : List (SinkOp ε)) (last : SinkOp ε),
      (Write.loop S fuel w p n ops).ops = ops ++ init ++ [last] ∧
      (∀ op ∈ init, opErr op = none) ∧
      opErr last = (Write.loop S fuel w p n ops).err := by
  refine Write.loop_induct S
    (fun _ _ _ ops r => ∃ (init : List (SinkOp ε)) (last : SinkOp ε),
      r.ops = ops ++ init ++ [last] ∧ (∀ op ∈ init, opErr op = none) ∧ opErr last = r.err)
    ?_ ?_ ?_ ?_ ?_ ?_ ?_ fuel w p n ops hf
  · intro w n ops
    exact ⟨[], SinkOp.flush (S.Flush w.w).1, by simp, by simp, rfl⟩
  · intro w p n ops _ _ _
    exact ⟨[], SinkOp.writePfx w.pfx (S.Write w.w w.pfx).1 (S.Write w.w w.pfx).2.1,
      by simp, by simp, rfl⟩
  · intro w p n ops r _ _ he ih
    obtain ⟨init, last, h1, h2, h3⟩ := ih
    refine ⟨_ :: init, last, by simpa using h1, ?_, h3⟩
    intro op hop
    simp only [List.mem_cons] at hop
    rcases hop with rfl | hop
    · simpa [opErr] using he
    · exact h2 op hop
  · intro w p n ops _ _ _ he
    refine ⟨[SinkOp.writeSeg p (S.Write w.w p).1 (S.Write w.w p).2.1],
      SinkOp.flush (S.Flush (S.Write w.w p).2.2).1, by simp, ?_, rfl⟩
    intro op hop
    simp only [List.mem_singleton] at hop
    subst hop
    simpa [opErr] using he
  · intro w p n ops _ _ _ _
    exact ⟨[], SinkOp.writeSeg p (S.Write w.w p).1 (S.Write w.w p).2.1, by simp, by simp, rfl⟩
  · intro w p n ops i _ _ _ _
    exact ⟨[], SinkOp.writeSeg (p.take (i + 1)) (S.Write w.w (p.take (i + 1))).1 (S.Write w.w (p.take (i + 1))).2.1, by simp, by simp, rfl⟩
  · intro w p n ops i r _ _ _ he ih
    obtain ⟨init, last, h1, h2, h3⟩ := ih
    refine ⟨_ :: init, last, by simpa using h1, ?_, h3⟩
    intro op hop
    simp only [List.mem_cons] at hop
    rcases hop with rfl | hop
    · simpa [opErr] using he
    · exact h2 op hop

/-- A run of the loop that returns `nil` has made a successful flush as its last call. -/
theorem Write.loop_flushed {σ ε : Type} (S : WriteFlusher σ ε) (fuel : Nat) (w : Writer σ)
    (p : List UInt8) (n : Int) (ops : List (SinkOp ε)) (hf : p.length ≤ fuel)
    (he : (Write.loop S fuel w p n ops).err = none) :
    (Write.loop S fuel w p n ops).ops.getLast? = some (SinkOp.flush none) := by
  revert he
  refine Write.loop_induct S
    (fun _ _ _ _ r => r.err = none → r.ops.getLast? = some (SinkOp.flush none))
    ?_ ?_ ?_ ?_ ?_ ?_ ?_ fuel w p n ops hf
  · intro w n ops h
    simp only at h
    simp [h]
  · intro w p n ops _ _ he h
    simp only at h
    rw [h] at he
    simp at he
  · intro w p n ops r _ _ _ ih h
    exact ih h
  · intro w p n ops _ _ _ _ h
    simp only at h
    simp [h]
  · intro w p n ops _ _ _ he h
    simp only at h
    rw [h] at he
    simp at he
  · intro w p n ops i _ _ _ he h
    simp only at h
    rw [h] at he
    simp at he
  · intro w p n ops i r _ _ _ _ ih h
    exact ih h

/-- With non-negative sink counts `written` does not decrease over a run of the loop. -/
theorem Write.loop_mono {σ ε : Type} (S : WriteFlusher σ ε) (hS : SinkNonneg S) (fuel : Nat)
    (w : Writer σ) (p : List UInt8) (n : Int) (ops : List (SinkOp ε)) (hf : p.length ≤ fuel) :
    w.written ≤ (Write.loop S fuel w p n ops).self.written := by
  refine Write.loop_induct S (fun w _ _ _ r => w.written ≤ r.self.written)
    ?_ ?_ ?_ ?_ ?_ ?_ ?_ fuel w p n ops hf
  · intro w n ops; simp
  · intro w p n ops _ _ _
    have := hS w.w w.pfx
    simp only; omega
  · intro w p n ops r _ _ _ ih
    have := hS w.w w.pfx
    simp only at ih; omega
  · intro w p n ops _ _ _ _
    have := hS w.w p
    simp only; omega
  · intro w p n ops _ _ _ _
    have := hS w.w p
    simp only; omega
  · intro w p n ops i _ _ _ _
    have := hS w.w (p.take (i + 1))
    simp only; omega
  · intro w p n ops i r _ _ _ _ ih
    have := hS w.w (p.take (i + 1))
    simp only at ih; omega

/-- C11: for every sink and input, the error returned by `Write` is the error of the first
sink call of the call's log that failed, unchanged, and `nil` when none failed; every sink
call but the last one of the log returned `nil`, so no sink call follows a failed one. -/
theorem C11_first_error_verbatim {σ ε : Type} (S : WriteFlusher σ ε) (w : Writer σ)
    (p : List UInt8) :
    (Write S w p).err = firstErr (Write S w p).ops ∧
    ∀ op ∈ (Write S w p).ops.dropLast, opErr op = none := by
  by_cases hp : p = []
  · subst hp
    simp [Write_nil, firstErr]
  · rw [Write_of_ne_nil S w hp]
    obtain ⟨init, last, h1, h2, h3⟩ := Write.loop_errs S p.length w p 0 [] (le_refl _)
    simp only [List.nil_append] at h1
    rw [h1]
    constructor
    · rw [firstErr_append_clean init [last] h2, ← h3]
      simp only [firstErr]
      cases opErr last <;> rfl
    · simpa using h2

theorem C11_first_error_verbatim_witness :
    (Write (limitSink 1) (NewSize [] [35]) [65, 66]).err
      = firstErr (Write (limitSink 1) (NewSize [] [35]) [65, 66]).ops ∧
    (Write (limitSink 1) (NewSize [] [35]) [65, 66]).err = some () ∧
    opErr (SinkOp.writePfx [35] 1 (none : Option Unit)) = none :=
  ⟨(C11_first_error_verbatim (limitSink 1) (NewSize [] [35]) [65, 66]).1, by decide,
    (C11_first_error_verbatim (limitSink 1) (NewSize [] [35]) [65, 66]).2
      (SinkOp.writePfx [35] 1 none) (by decide)⟩

/-- C13 as stated fails for the empty input: `Write` of no bytes returns `(0, nil)`, which
is `n = len(p)` and a nil error, without any sink call, so bytes that the sink had buffered
before the call stay unflushed. -/
theorem C13_counterexample :
    (Write bufSink (NewSize ([1], []) [35]) []).n = (([] : List UInt8).length : Int) ∧
    (Write bufSink (NewSize ([1], []) [35]) []).err = none ∧
    (Write bufSink (NewSize ([1], []) [35]) []).ops = [] ∧
    (Write bufSink (NewSize ([1], []) [35]) []).self.w = ([1], []) := by
  decide

/-- C13, amended: for every writer state, every sink and every non-empty input `p`, a
`Write(p)` that returns a nil error has made a successful `Flush` as its last sink call. -/
theorem C13_flushed_after_success {σ ε : Type} (S : WriteFlusher σ ε) (w : Writer σ)
    (p : List UInt8) (hp : p ≠ []) (he : (Write S w p).err = none) :
    (Write S w p).ops.getLast? = some (SinkOp.flush none) := by
  rw [Write_of_ne_nil S w hp] at he ⊢
  exact Write.loop_flushed S p.length w p 0 [] (le_refl _) he

theorem C13_flushed_after_success_witness :
    ([65, 10, 66] : List UInt8) ≠ [] ∧
    (Write bufSink (NewSize ([1], []) [35]) [65, 10, 66]).err = none ∧
    (Write bufSink (NewSize ([1], []) [35]) [65, 10, 66]).ops.getLast?
      = some (SinkOp.flush none) :=
  ⟨by decide, by decide,
    C13_flushed_after_success bufSink (NewSize ([1], []) [35]) [65, 10, 66]
      (by decide) (by decide)⟩

theorem Write_mono {σ ε : Type} (S : WriteFlusher σ ε) (hS : SinkNonneg S) (w : Writer σ)
    (p : List UInt8) : w.written ≤ (Write S w p).self.written := by
  by_cases hp : p = []
  · subst hp; simp [Write_nil]
  · rw [Write_of_ne_nil S w hp]
    exact Write.loop_mono S hS p.length w p 0 [] (le_refl _)

theorem WriteAll_mono {σ ε : Type} (S : WriteFlusher σ ε) (hS : SinkNonneg S) (w : Writer σ)
    (inputs : List (List UInt8)) : w.written ≤ (WriteAll S w inputs).1.written := by
  induction inputs generalizing w with
  | nil => simp [WriteAll]
  | cons p ps ih =>
    simp only [WriteAll]
    exact le_trans (Write_mono S hS w p) (ih _)

theorem limitSink_nonneg (k : Nat) : SinkNonneg (limitSink k) := by
  intro s q
  simp [limitSink]

/-- C14: `Written()` is monotonic and never reset. A freshly constructed writer has
`Written() = 0`, and if the sink returns non-negative counts then, from every writer state,
`Written()` after `Write(p)`, failed or not, and after any sequence of `Write` calls, is at
least `Written()` before. -/
theorem C14_written_monotonic {σ ε : Type} (S : WriteFlusher σ ε) (hS : SinkNonneg S)
    (s : σ) (pfx : List UInt8) (w : Writer σ) (p : List UInt8) (inputs : List (List UInt8)) :
    (NewSize s pfx).Written = 0 ∧
    w.Written ≤ (Write S w p).self.Written ∧
    w.Written ≤ (WriteAll S w inputs).1.Written :=
  ⟨rfl, Write_mono S hS w p, WriteAll_mono S hS w inputs⟩

theorem C14_written_monotonic_witness :
    SinkNonneg (limitSink 1) ∧
    (NewSize ([] : List UInt8) [35]).Written = 0 ∧
    (Writer.mk ([] : List UInt8) false [35] 5).Written
      ≤ (Write (limitSink 1) (Writer.mk [] false [35] 5) [65, 66]).self.Written ∧
    (Writer.mk ([] : List UInt8) false [35] 5).Written
      ≤ (WriteAll (limitSink 1) (Writer.mk [] false [35] 5) [[65], [10, 66, 67]]).1.Written :=
  ⟨limitSink_nonneg 1,
    C14_written_monotonic (limitSink 1) (limitSink_nonneg 1) [] [35]
      (Writer.mk [] false [35] 5) [65, 66] [[65], [10, 66, 67]]⟩

/-! ## Two runs on the same input -/

/-- Two runs of the loop on the same input, over sinks that accept every byte and from
writers with the same line-start flag, make the same sink calls at the same places: their
logs agree once the sink's answers and the prefix bytes are erased. -/
theorem Write.loop_shape {σ τ ε δ : Type} (S : WriteFlusher σ ε) (T : WriteFlusher τ δ)
    (hS : SinkFull S) (hT : SinkFull T) (fuel : Nat) (w : Writer σ) (p : List UInt8) (n : Int)
    (ops : List (SinkOp ε)) (hf : p.length ≤ fuel) :
    ∀ (fuel2 : Nat) (w2 : Writer τ) (n2 : Int) (ops2 : List (SinkOp δ)),
      p.length ≤ fuel2 → w2.head = w.head →
      ∃ (more : List (SinkOp ε)) (more2 : List (SinkOp δ)),
        (Write.loop S fuel w p n ops).ops = ops ++ more ∧
        (Write.loop T fuel2 w2 p n2 ops2).ops = ops2 ++ more2 ∧
        more.map eraseOp = more2.map eraseOp := by
  refine Write.loop_induct S
    (fun w p _ ops r => ∀ (fuel2 : Nat) (w2 : Writer τ) (n2 : Int) (ops2 : List (SinkOp δ)),
      p.length ≤ fuel2 → w2.head = w.head →
      ∃ (more : List (SinkOp ε)) (more2 : List (SinkOp δ)),
        r.ops = ops ++ more ∧ (Write.loop T fuel2 w2 p n2 ops2).ops = ops2 ++ more2 ∧
        more.map eraseOp = more2.map eraseOp)
    ?_ ?_ ?_ ?_ ?_ ?_ ?_ fuel w p n ops hf
  · intro w n ops fuel2 w2 n2 ops2 _ _
    rw [Write.loop_nil]
    exact ⟨_, _, rfl, rfl, by simp [eraseOp]⟩
  · intro w p n ops _ _ he
    rw [(hS _ _).2] at he
    simp at he
  · intro w p n ops r hp hh _ ih fuel2 w2 n2 ops2 hf2 hh2
    obtain ⟨k, rfl⟩ : ∃ k, fuel2 = k + 1 :=
      ⟨fuel2 - 1, by have := List.length_pos.mpr hp; omega⟩
    rw [Write.loop_pfx_ok T k w2 p n2 ops2 hp (hh2.trans hh) (hT _ _).2]
    obtain ⟨more, more2, h1, h2, h3⟩ :=
      ih (k + 1) { w2 with w := (T.Write w2.w w2.pfx).2.2, written := w2.written + (T.Write w2.w w2.pfx).1, head := false } n2
        (ops2 ++ [SinkOp.writePfx w2.pfx (T.Write w2.w w2.pfx).1 (T.Write w2.w w2.pfx).2.1])
        hf2 rfl
    refine ⟨_ :: more, _ :: more2, by simpa using h1, by simpa using h2, ?_⟩
    simp [eraseOp, h3]
  · intro w p n ops hp hh hi _ fuel2 w2 n2 ops2 hf2 hh2
    obtain ⟨k, rfl⟩ : ∃ k, fuel2 = k + 1 :=
      ⟨fuel2 - 1, by have := List.length_pos.mpr hp; omega⟩
    rw [Write.loop_last T k w2 p n2 ops2 hp (hh2.trans hh) hi,
      if_pos (by simp [(hT _ _).2])]
    exact ⟨_, _, by simp only [List.append_assoc]; rfl,
      by simp only [List.append_assoc]; rfl, by simp [eraseOp]⟩
  · intro w p n ops _ _ _ he
    rw [(hS _ _).2] at he
    simp at he
  · intro w p n ops i _ _ _ he
    rw [(hS _ _).2] at he
    simp at he
  · intro w p n ops i r hp hh hi _ ih fuel2 w2 n2 ops2 hf2 hh2
    obtain ⟨k, rfl⟩ : ∃ k, fuel2 = k + 1 :=
      ⟨fuel2 - 1, by have := List.length_pos.mpr hp; omega⟩
    rw [Write.loop_seg T k w2 p n2 ops2 i hp (hh2.trans hh) hi,
      if_neg (by simp [(hT _ _).2])]
    have hlt := IndexByte_lt hi
    obtain ⟨more, more2, h1, h2, h3⟩ :=
      ih k { w2 with w := (T.Write w2.w (p.take (i + 1))).2.2, written := w2.written + (T.Write w2.w (p.take (i + 1))).1, head := true }
        (n2 + (T.Write w2.w (p.take (i + 1))).1)
        (ops2 ++ [SinkOp.writeSeg (p.take (i + 1)) (T.Write w2.w (p.take (i + 1))).1
          (T.Write w2.w (p.take (i + 1))).2.1])
        (by simp only [List.length_drop]; omega) rfl
    refine ⟨_ :: more, _ :: more2, by simpa using h1, by simpa using h2, ?_⟩
    simp [eraseOp, h3]

theorem Write_shape {σ τ ε δ : Type} (S : WriteFlusher σ ε) (T : WriteFlusher τ δ)
    (hS : SinkFull S) (hT : SinkFull T) (w : Writer σ) (w2 : Writer τ) (hh : w2.head = w.head)
    (p : List UInt8) :
    (Write S w p).ops.map eraseOp = (Write T w2 p).ops.map eraseOp := by
  by_cases hp : p = []
  · subst hp; simp [Write_nil]
  · rw [Write_of_ne_nil S w hp, Write_of_ne_nil T w2 hp]
    obtain ⟨more, more2, h1, h2, h3⟩ :=
      Write.loop_shape S T hS hT p.length w p 0 [] (le_refl _) p.length w2 0 [] (le_refl _) hh
    rw [h1, h2]
    simpa using h3

/-- Over a sink that accepts every byte, two writers with the same line-start flag give,
call by call, the same `(n, err)`, the same line-start flag after the call, and the same
sink calls once the sink's answers and the prefix bytes are erased. -/
theorem WriteEach_shape {σ ε : Type} (S : WriteFlusher σ ε) (hS : SinkFull S) (hF : FlushOk S)
    (w w2 : Writer σ) (hh : w2.head = w.head) (inputs : List (List UInt8)) :
    (WriteEach S w inputs).map (fun r => (r.n, r.err, r.self.head, r.ops.map eraseOp))
      = (WriteEach S w2 inputs).map (fun r => (r.n, r.err, r.self.head, r.ops.map eraseOp)) := by
  induction inputs generalizing w w2 with
  | nil => rfl
  | cons p ps ih =>
    obtain ⟨a1, a2, -, a4⟩ := Write_full S hS w p
    obtain ⟨b1, b2, -, b4⟩ := Write_full S hS w2 p
    have hh' : (Write S w2 p).self.head = (Write S w p).self.head := by rw [a2, b2, hh]
    simp only [WriteEach, List.map_cons]
    rw [ih _ _ hh', a1, b1, a4 hF, b4 hF, hh', Write_shape S S hS hS w w2 hh p]

/-- C15: the prefix is never interpreted. For every sequence of inputs and any two prefixes
`q1` and `q2`, two writers that differ only in the prefix, over a sink that accepts every
byte, return the same `(n, err)` from every `Write`, have the same line-start flag after
every call, and make the same sink calls, the prefix writes at the same places between the
same content segments. -/
theorem C15_prefix_not_interpreted {σ ε : Type} (S : WriteFlusher σ ε) (hS : SinkFull S)
    (hF : FlushOk S) (w : Writer σ) (q1 q2 : List UInt8) (inputs : List (List UInt8)) :
    (WriteEach S { w with pfx := q1 } inputs).map
        (fun r => (r.n, r.err, r.self.head, r.ops.map eraseOp))
      = (WriteEach S { w with pfx := q2 } inputs).map
        (fun r => (r.n, r.err, r.self.head, r.ops.map eraseOp)) :=
  WriteEach_shape S hS hF { w with pfx := q1 } { w with pfx := q2 } rfl inputs

theorem C15_prefix_not_interpreted_witness :
    SinkFull (nopFlusher Unit) ∧ FlushOk (nopFlusher Unit) ∧
    (WriteEach (nopFlusher Unit) { (NewSize [] [35]) with pfx := [10, 62, 10] }
        [[65, 10, 10], [66], [67, 10]]).map
        (fun r => (r.n, r.err, r.self.head, r.ops.map eraseOp))
      = (WriteEach (nopFlusher Unit) { (NewSize [] [35]) with pfx := [] }
        [[65, 10, 10], [66], [67, 10]]).map
        (fun r => (r.n, r.err, r.self.head, r.ops.map eraseOp)) :=
  ⟨nopFlusher_full Unit, nopFlusher_flushOk Unit,
    C15_prefix_not_interpreted (nopFlusher Unit) (nopFlusher_full Unit)
      (nopFlusher_flushOk Unit) (NewSize [] [35]) [10, 62, 10] []
      [[65, 10, 10], [66], [67, 10]]⟩

/-- The log of a `Write` call is empty, or it ends in a call whose error is the one `Write`
returns and all its earlier calls returned `nil`. -/
theorem Write_errs {σ ε : Type} (S : WriteFlusher σ ε) (w : Writer σ) (p : List UInt8) :
    (Write S w p).ops = [] ∨
    ∃ (init : List (SinkOp ε)) (last : SinkOp ε),
      (Write S w p).ops = init ++ [last] ∧ (∀ op ∈ init, opErr op = none) ∧
      opErr last = (Write S w p).err := by
  by_cases hp : p = []
  · subst hp; left; simp [Write_nil]
  · right
    rw [Write_of_ne_nil S w hp]
    obtain ⟨init, last, h1, h2, h3⟩ := Write.loop_errs S p.length w p 0 [] (le_refl _)
    exact ⟨init, last, by simpa using h1, h2, h3⟩

/-- C17 as stated fails: when the sink accepts one byte of a two-byte segment and returns
an error, the count returned by `Write` includes that byte of the failed segment. -/
theorem C17_counterexample :
    (Write (limitSink 1) (NewSize [] [35]) [65, 66]).ops
      = [SinkOp.writePfx [35] 1 none, SinkOp.writeSeg [65, 66] 1 (some ())] ∧
    (Write (limitSink 1) (NewSize [] [35]) [65, 66]).err = some () ∧
    (Write (limitSink 1) (NewSize [] [35]) [65, 66]).n = 1 := by
  decide

/-- C17, amended: when the sink's write of a content segment returns an error, that write
is the last sink call of the `Write` call, and `Write` returns that error together with the
sum of the counts the sink returned for the earlier content segments plus the count it
returned for the failed segment. -/
theorem C17_segment_error {σ ε : Type} (S : WriteFlusher σ ε) (w : Writer σ) (p : List UInt8)
    (pre post : List (SinkOp ε)) (q : List UInt8) (c : Int) (e : Option ε)
    (hlog : (Write S w p).ops = pre ++ SinkOp.writeSeg q c e :: post) (he : e ≠ none) :
    post = [] ∧ (Write S w p).err = e ∧ (Write S w p).n = opsContent pre + c := by
  rcases Write_errs S w p with h0 | ⟨init, last, h1, h2, h3⟩
  · rw [h0] at hlog
    simp at hlog
  · have hpost : post = [] := by
      by_contra hne
      rcases List.eq_nil_or_concat post with h | ⟨L, b, rfl⟩
      · exact hne h
      · have heq2 : init ++ [last] = (pre ++ SinkOp.writeSeg q c e :: L) ++ [b] := by
          rw [← h1, hlog]; simp
        have hi := (List.append_inj' heq2 rfl).1
        have := h2 (SinkOp.writeSeg q c e) (by rw [hi]; simp)
        exact he (by simpa [opErr] using this)
    subst hpost
    have heq2 : init ++ [last] = pre ++ [SinkOp.writeSeg q c e] := by rw [← h1, hlog]
    obtain ⟨hi, hl⟩ := List.append_inj' heq2 rfl
    have hl' : last = SinkOp.writeSeg q c e := by simpa using hl
    refine ⟨rfl, ?_, ?_⟩
    · rw [← h3, hl']; rfl
    · rw [(Write_account S w p).2.1, hlog, opsContent_append]
      simp [opsContent]

theorem C17_segment_error_witness :
    (Write (limitSink 1) (NewSize [] [35]) [65, 10, 66]).ops
      = [SinkOp.writePfx [35] 1 none] ++ SinkOp.writeSeg [65, 10] 1 (some ()) :: [] ∧
    (some () : Option Unit) ≠ none ∧
    ([] : List (SinkOp Unit)) = [] ∧
    (Write (limitSink 1) (NewSize [] [35]) [65, 10, 66]).err = some () ∧
    (Write (limitSink 1) (NewSize [] [35]) [65, 10, 66]).n
      = opsContent [SinkOp.writePfx [35] 1 (none : Option Unit)] + 1 :=
  ⟨by decide, by decide,
    C17_segment_error (limitSink 1) (NewSize [] [35]) [65, 10, 66]
      [SinkOp.writePfx [35] 1 none] [] [65, 10] 1 (some ()) (by decide) (by decide)⟩

/-! ## The line-start flag and the log -/

theorem IndexByte_none_not_mem {p : List UInt8} {c : UInt8} (h : IndexByte p c = none) :
    c ∉ p := by
  induction p with
  | nil => simp
  | cons b bs ih =>
    by_cases hb : b = c
    · simp [IndexByte, hb] at h
    · rw [IndexByte_cons_ne hb] at h
      have h' : IndexByte bs c = none := by simpa using h
      simp only [List.mem_cons, not_or]
      exact ⟨fun e => hb e.symm, ih h'⟩

theorem IndexByte_not_mem_take {p : List UInt8} {c : UInt8} {i : Nat}
    (h : IndexByte p c = some i) : c ∉ p.take i := by
  induction p generalizing i with
  | nil => simp
  | cons b bs ih =>
    by_cases hb : b = c
    · have : i = 0 := by simpa [IndexByte, hb] using h.symm
      subst this; simp
    · rw [IndexByte_cons_ne hb] at h
      cases hj : IndexByte bs c with
      | none => simp [hj] at h
      | some j =>
        have : i = j + 1 := by simpa [hj] using h.symm
        subst this
        simp only [List.take_succ_cons, List.mem_cons, not_or]
        exact ⟨fun e => hb e.symm, ih hj⟩

theorem IndexByte_take_getLast {p : List UInt8} {c : UInt8} {i : Nat}
    (h : IndexByte p c = some i) : (p.take (i + 1)).getLast? = some c := by
  induction p generalizing i with
  | nil => simp [IndexByte] at h
  | cons b bs ih =>
    by_cases hb : b = c
    · have : i = 0 := by simpa [IndexByte, hb] using h.symm
      subst this; simp [hb]
    · rw [IndexByte_cons_ne hb] at h
      cases hj : IndexByte bs c with
      | none => simp [hj] at h
      | some j =>
        have : i = j + 1 := by simpa [hj] using h.symm
        subst this
        have := ih hj
        cases bs with
        | nil => simp [IndexByte] at hj
        | cons d ds =>
          simp only [List.take_succ_cons] at this ⊢
          rw [List.getLast?_cons_cons]
          exact this

theorem getLast?_ne_of_not_mem {p : List UInt8} {c : UInt8} (h : c ∉ p) :
    p.getLast? ≠ some c := by
  intro hl
  exact h (List.mem_of_mem_getLast? hl)

theorem lastOkWrite_append {ε : Type} (a b : List (SinkOp ε)) :
    lastOkWrite (a ++ b)
      = match lastOkWrite b with
        | some o => some o
        | none => lastOkWrite a := by
  induction a with
  | nil => simp only [List.nil_append, lastOkWrite]; cases lastOkWrite b <;> rfl
  | cons x xs ih =>
    rw [List.cons_append]
    simp only [lastOkWrite]
    rw [ih]
    cases lastOkWrite b <;> rfl

/-- Over a run of the loop the line-start flag ends as the most recent successful sink write
of the run leaves it: cleared by a prefix write and by an unterminated segment, set by a
segment that ends in `'\n'`, and unchanged when no write of the run succeeded. -/
theorem Write.loop_head {σ ε : Type} (S : WriteFlusher σ ε) (fuel : Nat) (w : Writer σ)
    (p : List UInt8) (n : Int) (ops : List (SinkOp ε)) (hf : p.length ≤ fuel) :
    ∃ more : List (SinkOp ε),
      (Write.loop S fuel w p n ops).ops = ops ++ more ∧
      (Write.loop S fuel w p n ops).self.head
        = match lastOkWrite more with
          | none => w.head
          | some op => endsLine op := by
  refine Write.loop_induct S
    (fun w _ _ ops r => ∃ more : List (SinkOp ε), r.ops = ops ++ more ∧
      r.self.head = match lastOkWrite more with
        | none => w.head
        | some op => endsLine op)
    ?_ ?_ ?_ ?_ ?_ ?_ ?_ fuel w p n ops hf
  · intro w n ops
    exact ⟨[SinkOp.flush (S.Flush w.w).1], rfl, by simp [lastOkWrite, okWrite]⟩
  · intro w p n ops _ _ he
    refine ⟨[SinkOp.writePfx w.pfx (S.Write w.w w.pfx).1 (S.Write w.w w.pfx).2.1], rfl, ?_⟩
    obtain ⟨e, he'⟩ := Option.isSome_iff_exists.mp he
    simp [lastOkWrite, okWrite, he']
  · intro w p n ops r _ _ he ih
    obtain ⟨more, h1, h2⟩ := ih
    refine ⟨SinkOp.writePfx w.pfx (S.Write w.w w.pfx).1 (S.Write w.w w.pfx).2.1 :: more,
      by simpa using h1, ?_⟩
    rw [h2]
    simp only [lastOkWrite, okWrite, he]
    cases lastOkWrite more <;> simp [endsLine]
  · intro w p n ops hp hh hi he
    refine ⟨[SinkOp.writeSeg p (S.Write w.w p).1 (S.Write w.w p).2.1,
      SinkOp.flush (S.Flush (S.Write w.w p).2.2).1], by simp, ?_⟩
    have := getLast?_ne_of_not_mem (IndexByte_none_not_mem hi)
    simp [lastOkWrite, okWrite, he, endsLine, hh, this]
  · intro w p n ops _ _ _ he
    refine ⟨[SinkOp.writeSeg p (S.Write w.w p).1 (S.Write w.w p).2.1], rfl, ?_⟩
    obtain ⟨e, he'⟩ := Option.isSome_iff_exists.mp he
    simp [lastOkWrite, okWrite, he']
  · intro w p n ops i _ _ _ he
    refine ⟨[SinkOp.writeSeg (p.take (i + 1)) (S.Write w.w (p.take (i + 1))).1 (S.Write w.w (p.take (i + 1))).2.1], rfl, ?_⟩
    obtain ⟨e, he'⟩ := Option.isSome_iff_exists.mp he
    simp [lastOkWrite, okWrite, he']
  · intro w p n ops i r _ _ hi he ih
    obtain ⟨more, h1, h2⟩ := ih
    refine ⟨SinkOp.writeSeg (p.take (i + 1)) (S.Write w.w (p.take (i + 1))).1 (S.Write w.w (p.take (i + 1))).2.1 :: more,
      by simpa using h1, ?_⟩
    rw [h2]
    simp only [lastOkWrite, okWrite, he]
    cases lastOkWrite more <;> simp [endsLine, IndexByte_take_getLast hi]

theorem Write_head {σ ε : Type} (S : WriteFlusher σ ε) (w : Writer σ) (p : List UInt8) :
    (Write S w p).self.head
      = match lastOkWrite (Write S w p).ops with
        | none => w.head
        | some op => endsLine op := by
  by_cases hp : p = []
  · subst hp; simp [Write_nil, lastOkWrite]
  · rw [Write_of_ne_nil S w hp]
    obtain ⟨more, h1, h2⟩ := Write.loop_head S p.length w p 0 [] (le_refl _)
    simp only [List.nil_append] at h1
    rw [h1, h2]

theorem WriteAll_head {σ ε : Type} (S : WriteFlusher σ ε) (w : Writer σ)
    (inputs : List (List UInt8)) :
    (WriteAll S w inputs).1.head
      = match lastOkWrite (WriteAll S w inputs).2 with
        | none => w.head
        | some op => endsLine op := by
  induction inputs generalizing w with
  | nil => simp [WriteAll, lastOkWrite]
  | cons p ps ih =>
    simp only [WriteAll]
    rw [ih, lastOkWrite_append, Write_head S w p]
    cases lastOkWrite (WriteAll S (Write S w p).self ps).2 <;> rfl

/-- C18 as stated fails: after a successful `Write` of a line and a second `Write` whose
prefix write succeeds and whose content write fails with no byte accepted, the most recent
byte of input accepted by the sink is the `'\n'` of the first call, but the line-start flag
is false, the prefix of the new line being already on the sink. -/
theorem C18_counterexample :
    (WriteAll (faultSink 3 0) (NewSize (0, []) [35]) [[65, 10], [66]]).2
      = [SinkOp.writePfx [35] 1 none, SinkOp.writeSeg [65, 10] 2 none, SinkOp.flush none,
         SinkOp.writePfx [35] 1 none, SinkOp.writeSeg [66] 0 (some ())] ∧
    (acceptedInput (WriteAll (faultSink 3 0) (NewSize (0, []) [35]) [[65, 10], [66]]).2).getLast?
      = some 10 ∧
    (WriteAll (faultSink 3 0) (NewSize (0, []) [35]) [[65, 10], [66]]).1.head = false := by
  decide

/-- C18, amended: for every sink and after every sequence of `Write` calls on a freshly
constructed writer, successful or failed, the line-start flag is true exactly when no sink
write of the writer has returned without error yet, or the most recent sink write that
returned without error was a content segment ending in `'\n'`; from any writer state, the
flag after the calls is the one before them when no sink write succeeded, and otherwise
tells whether the most recent successful sink write was a segment ending in `'\n'`. -/
theorem C18_line_start_invariant {σ ε : Type} (S : WriteFlusher σ ε) (s : σ)
    (pfx : List UInt8) (inputs : List (List UInt8)) :
    ((WriteAll S (NewSize s pfx) inputs).1.head = true ↔
      (lastOkWrite (WriteAll S (NewSize s pfx) inputs).2 = none ∨
       ∃ op, lastOkWrite (WriteAll S (NewSize s pfx) inputs).2 = some op ∧ endsLine op = true)) ∧
    ∀ w : Writer σ,
      (WriteAll S w inputs).1.head
        = match lastOkWrite (WriteAll S w inputs).2 with
          | none => w.head
          | some op => endsLine op := by
  refine ⟨?_, fun w => WriteAll_head S w inputs⟩
  rw [WriteAll_head S (NewSize s pfx) inputs]
  cases lastOkWrite (WriteAll S (NewSize s pfx) inputs).2 with
  | none => simp [NewSize]
  | some op => simp

/-- C19: for every non-empty input `p` and every prior writer state, after a `Write(p)` on
a sink whose writes accept all the bytes offered, the line-start flag is true if and only
if the last byte of `p` is `'\n'`, whatever the flag was before the call and whatever the
final flush returns. -/
theorem C19_flag_after_full_write {σ ε : Type} (S : WriteFlusher σ ε) (hS : SinkFull S)
    (w : Writer σ) (p : List UInt8) (hp : p ≠ []) :
    ((Write S w p).self.head = true ↔ p.getLast? = some 10) := by
  rw [(Write_full S hS w p).2.1, headAfter_eq_getLast w.head hp]
  simp

theorem C19_flag_after_full_write_witness :
    SinkFull (nopFlusher Unit) ∧ ([65, 10, 66, 10] : List UInt8) ≠ [] ∧
    ((Write (nopFlusher Unit) (Writer.mk [] false [35] 0) [65, 10, 66, 10]).self.head = true ↔
      ([65, 10, 66, 10] : List UInt8).getLast? = some 10) :=
  ⟨nopFlusher_full Unit, by decide,
    C19_flag_after_full_write (nopFlusher Unit) (nopFlusher_full Unit)
      (Writer.mk [] false [35] 0) [65, 10, 66, 10] (by decide)⟩

theorem render_nil_pfx (h : Bool) (p : List UInt8) : render [] h p = p := by
  induction p generalizing h with
  | nil => rfl
  | cons b bs ih => cases h <;> simp [render, ih]

/-- C20: for a writer with an empty prefix over a sink that accepts every byte, for every
input `p` the bytes added to the sink by `Write(p)` are exactly `p`, `Write` returns
`(len(p), nil)`, and `Written()` grows by exactly `len(p)`. -/
theorem C20_empty_pfx {σ ε : Type} (S : WriteFlusher σ ε) (out : σ → List UInt8)
    (hS : SinkFull S) (hF : FlushOk S) (hO : SinkStores S out) (w : Writer σ)
    (hw : w.pfx = []) (p : List UInt8) :
    out (Write S w p).self.w = out w.w ++ p ∧
    (Write S w p).n = p.length ∧ (Write S w p).err = none ∧
    (Write S w p).self.Written = w.Written + p.length := by
  obtain ⟨h1, -, h3, h4⟩ := Write_full S hS w p
  have h5 := Write_out S out hS hO w p
  rw [hw, render_nil_pfx] at h3 h5
  exact ⟨h5, h1, h4 hF, h3⟩

theorem C20_empty_pfx_witness :
    SinkFull (nopFlusher Unit) ∧ FlushOk (nopFlusher Unit) ∧ SinkStores (nopFlusher Unit) id ∧
    (NewSize ([1] : List UInt8) []).pfx = [] ∧
    id (Write (nopFlusher Unit) (NewSize [1] []) [65, 10, 10, 66]).self.w
      = id (NewSize ([1] : List UInt8) []).w ++ [65, 10, 10, 66] ∧
    (Write (nopFlusher Unit) (NewSize [1] []) [65, 10, 10, 66]).n
      = ([65, 10, 10, 66] : List UInt8).length ∧
    (Write (nopFlusher Unit) (NewSize [1] []) [65, 10, 10, 66]).err = none ∧
    (Write (nopFlusher Unit) (NewSize [1] []) [65, 10, 10, 66]).self.Written
      = (NewSize ([1] : List UInt8) []).Written + ([65, 10, 10, 66] : List UInt8).length :=
  ⟨nopFlusher_full Unit, nopFlusher_flushOk Unit, nopFlusher_stores Unit, rfl,
    C20_empty_pfx (nopFlusher Unit) id (nopFlusher_full Unit) (nopFlusher_flushOk Unit)
      (nopFlusher_stores Unit) (NewSize [1] []) rfl [65, 10, 10, 66]⟩

/-! ## Resuming after a failed call -/

/-! ## The `bufio.Writer` sink -/

theorem Bufio.Flush_dead {υ ε : Type} (U : RawWriter υ ε) (errShort : ε) (b : Bufio υ ε)
    (e : ε) (hb : b.err = some e) : Bufio.Flush U errShort b = (some e, b) := by
  simp [Bufio.Flush, hb]

theorem Bufio.Flush_empty {υ ε : Type} (U : RawWriter υ ε) (errShort : ε) (b : Bufio υ ε)
    (hb : b.err = none) (h0 : b.buf = []) : Bufio.Flush U errShort b = (none, b) := by
  simp [Bufio.Flush, hb, h0]

theorem Bufio.Flush_short {υ ε : Type} (U : RawWriter υ ε) (errShort : ε) (b : Bufio υ ε)
    (hb : b.err = none) (h0 : b.buf ≠ []) (he : (U.Write b.wr b.buf).2.1 = none)
    (hn : min (U.Write b.wr b.buf).1 b.buf.length < b.buf.length) :
    Bufio.Flush U errShort b
      = (some errShort, { b with wr := (U.Write b.wr b.buf).2.2, buf := b.buf.drop (min (U.Write b.wr b.buf).1 b.buf.length), err := some errShort }) := by
  have h0' : ¬ b.buf.length = 0 := fun h => h0 (List.length_eq_zero.mp h)
  simp [Bufio.Flush, hb, h0', he, hn]

theorem Bufio.Flush_fail {υ ε : Type} (U : RawWriter υ ε) (errShort : ε) (b : Bufio υ ε)
    (hb : b.err = none) (h0 : b.buf ≠ []) (e : ε) (he : (U.Write b.wr b.buf).2.1 = some e) :
    Bufio.Flush U errShort b
      = (some e, { b with wr := (U.Write b.wr b.buf).2.2, buf := b.buf.drop (min (U.Write b.wr b.buf).1 b.buf.length), err := some e }) := by
  have h0' : ¬ b.buf.length = 0 := fun h => h0 (List.length_eq_zero.mp h)
  simp [Bufio.Flush, hb, h0', he]

theorem Bufio.Flush_ok {υ ε : Type} (U : RawWriter υ ε) (errShort : ε) (b : Bufio υ ε)
    (hb : b.err = none) (h0 : b.buf ≠ []) (he : (U.Write b.wr b.buf).2.1 = none)
    (hn : ¬ min (U.Write b.wr b.buf).1 b.buf.length < b.buf.length) :
    Bufio.Flush U errShort b = (none, { b with wr := (U.Write b.wr b.buf).2.2, buf := [] }) := by
  have h0' : ¬ b.buf.length = 0 := fun h => h0 (List.length_eq_zero.mp h)
  simp [Bufio.Flush, hb, h0', he, hn]

/-- What a flush returns is the error its writer keeps afterwards; a flush that returns no
error leaves the buffer empty; and over a destination that stores what it reports a flush
does not change the bytes accepted. -/
theorem Bufio.Flush_spec {υ ε : Type} (U : RawWriter υ ε) (errShort : ε) (b : Bufio υ ε) :
    (Bufio.Flush U errShort b).2.err = (Bufio.Flush U errShort b).1 ∧
    ((Bufio.Flush U errShort b).1 = none → (Bufio.Flush U errShort b).2.buf = []) ∧
    ∀ outU : υ → List UInt8, RawTruthful U outU →
      outU (Bufio.Flush U errShort b).2.wr ++ (Bufio.Flush U errShort b).2.buf
        = outU b.wr ++ b.buf := by
  cases hb : b.err with
  | some e =>
    rw [Bufio.Flush_dead U errShort b e hb]
    exact ⟨hb, fun h => by simp at h, fun _ _ => rfl⟩
  | none =>
    by_cases h0 : b.buf = []
    · rw [Bufio.Flush_empty U errShort b hb h0]
      exact ⟨hb, fun _ => h0, fun _ _ => rfl⟩
    · cases he : (U.Write b.wr b.buf).2.1 with
      | some e =>
        rw [Bufio.Flush_fail U errShort b hb h0 e he]
        refine ⟨rfl, fun h => by simp at h, fun outU hU => ?_⟩
        simp only
        rw [hU b.wr b.buf, List.append_assoc, List.take_append_drop]
      | none =>
        by_cases hn : min (U.Write b.wr b.buf).1 b.buf.length < b.buf.length
        · rw [Bufio.Flush_short U errShort b hb h0 he hn]
          refine ⟨rfl, fun h => by simp at h, fun outU hU => ?_⟩
          simp only
          rw [hU b.wr b.buf, List.append_assoc, List.take_append_drop]
        · rw [Bufio.Flush_ok U errShort b hb h0 he hn]
          refine ⟨hb, fun _ => rfl, fun outU hU => ?_⟩
          simp only
          have h4 : min (U.Write b.wr b.buf).1 b.buf.length = b.buf.length := by omega
          rw [hU b.wr b.buf, h4, List.take_length, List.append_nil]

theorem Bufio.Write.finish_dead {υ ε : Type} (b : Bufio υ ε) (p : List UInt8) (nn : Nat)
    (e : ε) (hb : b.err = some e) : Bufio.Write.finish b p nn = (nn, some e, b) := by
  simp [Bufio.Write.finish, hb]

theorem Bufio.Write.finish_ok {υ ε : Type} (b : Bufio υ ε) (p : List UInt8) (nn : Nat)
    (hb : b.err = none) :
    Bufio.Write.finish b p nn
      = (nn + min b.Available p.length, none, { b with buf := b.buf ++ p.take (min b.Available p.length) }) := by
  simp [Bufio.Write.finish, hb]

theorem Bufio.Write.finish_spec {υ ε : Type} (b : Bufio υ ε) (p : List UInt8) (nn : Nat) :
    (Bufio.Write.finish b p nn).2.2.err = (Bufio.Write.finish b p nn).2.1 ∧
    nn ≤ (Bufio.Write.finish b p nn).1 ∧ (Bufio.Write.finish b p nn).1 ≤ nn + p.length ∧
    (Bufio.Write.finish b p nn).2.2.wr = b.wr ∧
    (Bufio.Write.finish b p nn).2.2.buf = b.buf ++ p.take ((Bufio.Write.finish b p nn).1 - nn) ∧
    ((Bufio.Write.finish b p nn).2.1 = none → p.length ≤ b.Available →
      (Bufio.Write.finish b p nn).1 = nn + p.length) := by
  cases hb : b.err with
  | some e =>
    rw [Bufio.Write.finish_dead b p nn e hb]
    exact ⟨hb, le_refl _, by omega, rfl, by simp, fun h => by simp at h⟩
  | none =>
    rw [Bufio.Write.finish_ok b p nn hb]
    refine ⟨hb, by omega, by simp only; omega, rfl, by simp, fun _ hle => ?_⟩
    simp only
    rw [Nat.min_eq_right hle]

theorem Bufio.Write.loop_kept {υ ε : Type} (U : RawWriter υ ε) (errShort : ε) (fuel : Nat)
    (b : Bufio υ ε) (p : List UInt8) (nn : Nat) (e : ε) (hb : b.err = some e) :
    Bufio.Write.loop U errShort fuel b p nn = (nn, some e, b) := by
  cases fuel <;> simp [Bufio.Write.loop, Bufio.Write.finish, hb]

theorem Bufio.Write.loop_exit {υ ε : Type} (U : RawWriter υ ε) (errShort : ε) (fuel : Nat)
    (b : Bufio υ ε) (p : List UInt8) (nn : Nat) (h : ¬ (p.length > b.Available ∧ b.err = none)) :
    Bufio.Write.loop U errShort fuel b p nn = Bufio.Write.finish b p nn := by
  cases fuel with
  | zero => rfl
  | succ fuel =>
    have h' : ¬ (p.length > b.Available ∧ b.err.isNone = true) := by
      simpa [Option.isNone_iff_eq_none] using h
    simp only [Bufio.Write.loop, h', if_false]

theorem Bufio.Write.loop_direct {υ ε : Type} (U : RawWriter υ ε) (errShort : ε) (fuel : Nat)
    (b : Bufio υ ε) (p : List UInt8) (nn : Nat) (hp : p.length > b.Available)
    (hb : b.err = none) (h0 : b.buf = []) :
    Bufio.Write.loop U errShort (fuel + 1) b p nn
      = Bufio.Write.loop U errShort fuel { b with wr := (U.Write b.wr p).2.2, err := (U.Write b.wr p).2.1 }
          (p.drop (min (U.Write b.wr p).1 p.length)) (nn + min (U.Write b.wr p).1 p.length) := by
  have hc : p.length > b.Available ∧ b.err.isNone = true := ⟨hp, by simp [hb]⟩
  have hz : b.Buffered = 0 := by simp [Bufio.Buffered, h0]
  simp only [Bufio.Write.loop, hc, hz, if_true, and_self]

theorem Bufio.Write.loop_fill {υ ε : Type} (U : RawWriter υ ε) (errShort : ε) (fuel : Nat)
    (b : Bufio υ ε) (p : List UInt8) (nn : Nat) (hp : p.length > b.Available)
    (hb : b.err = none) (h0 : b.buf ≠ []) :
    Bufio.Write.loop U errShort (fuel + 1) b p nn
      = Bufio.Write.loop U errShort fuel
          (Bufio.Flush U errShort { b with buf := b.buf ++ p.take (min b.Available p.length) }).2
          (p.drop (min b.Available p.length)) (nn + min b.Available p.length) := by
  have hc : p.length > b.Available ∧ b.err.isNone = true := ⟨hp, by simp [hb]⟩
  have hz : ¬ b.Buffered = 0 := by
    simp only [Bufio.Buffered]
    exact fun h => h0 (List.length_eq_zero.mp h)
  simp only [Bufio.Write.loop, hc, hz, if_true, if_false, and_self]

/-- The error returned by the loop of `bufio.Writer.Write` is the error the writer keeps
afterwards; the count grows by at most `len(p)`; and over a destination that stores what it
reports, the bytes of `p` that were counted are appended to the bytes accepted. -/
theorem Bufio.Write.loop_spec {υ ε : Type} (U : RawWriter υ ε) (errShort : ε) (fuel : Nat)
    (b : Bufio υ ε) (p : List UInt8) (nn : Nat) :
    (Bufio.Write.loop U errShort fuel b p nn).2.2.err
      = (Bufio.Write.loop U errShort fuel b p nn).2.1 ∧
    nn ≤ (Bufio.Write.loop U errShort fuel b p nn).1 ∧
    (Bufio.Write.loop U errShort fuel b p nn).1 ≤ nn + p.length ∧
    ∀ outU : υ → List UInt8, RawTruthful U outU →
      outU (Bufio.Write.loop U errShort fuel b p nn).2.2.wr
          ++ (Bufio.Write.loop U errShort fuel b p nn).2.2.buf
        = outU b.wr ++ b.buf
          ++ p.take ((Bufio.Write.loop U errShort fuel b p nn).1 - nn) := by
  induction fuel generalizing b p nn with
  | zero =>
    obtain ⟨h1, h2, h3, h4, h5, -⟩ := Bufio.Write.finish_spec b p nn
    simp only [Bufio.Write.loop]
    exact ⟨h1, h2, h3, fun _ _ => by rw [h4, h5, List.append_assoc]⟩
  | succ fuel ih =>
    by_cases hc : p.length > b.Available ∧ b.err = none
    · by_cases h0 : b.buf = []
      · have key := ih { b with wr := (U.Write b.wr p).2.2, err := (U.Write b.wr p).2.1 }
          (p.drop (min (U.Write b.wr p).1 p.length)) (nn + min (U.Write b.wr p).1 p.length)
        rw [Bufio.Write.loop_direct U errShort fuel b p nn hc.1 hc.2 h0]
        generalize Bufio.Write.loop U errShort fuel
          { b with wr := (U.Write b.wr p).2.2, err := (U.Write b.wr p).2.1 }
          (p.drop (min (U.Write b.wr p).1 p.length)) (nn + min (U.Write b.wr p).1 p.length)
          = L at key ⊢
        obtain ⟨h1, h2, h3, h4⟩ := key
        simp only [List.length_drop] at h3
        refine ⟨h1, by omega, by omega, fun outU hU => ?_⟩
        rw [h4 outU hU]
        simp only
        rw [hU b.wr p, h0, List.append_nil, List.append_nil, List.append_assoc]
        congr 1
        rw [show L.1 - nn = min (U.Write b.wr p).1 p.length
              + (L.1 - (nn + min (U.Write b.wr p).1 p.length)) from by omega, List.take_add]
      · have key := ih
          (Bufio.Flush U errShort { b with buf := b.buf ++ p.take (min b.Available p.length) }).2
          (p.drop (min b.Available p.length)) (nn + min b.Available p.length)
        rw [Bufio.Write.loop_fill U errShort fuel b p nn hc.1 hc.2 h0]
        generalize Bufio.Write.loop U errShort fuel
          (Bufio.Flush U errShort { b with buf := b.buf ++ p.take (min b.Available p.length) }).2
          (p.drop (min b.Available p.length)) (nn + min b.Available p.length)
          = L at key ⊢
        obtain ⟨h1, h2, h3, h4⟩ := key
        simp only [List.length_drop] at h3
        refine ⟨h1, by omega, by omega, fun outU hU => ?_⟩
        rw [h4 outU hU, (Bufio.Flush_spec U errShort _).2.2 outU hU]
        simp only
        rw [List.append_assoc, List.append_assoc, List.append_assoc]
        congr 2
        rw [show L.1 - nn = min b.Available p.length
              + (L.1 - (nn + min b.Available p.length)) from by omega, List.take_add]
    · rw [Bufio.Write.loop_exit U errShort (fuel + 1) b p nn hc]
      obtain ⟨h1, h2, h3, h4, h5, -⟩ := Bufio.Write.finish_spec b p nn
      exact ⟨h1, h2, h3, fun _ _ => by rw [h4, h5, List.append_assoc]⟩

/-- Over a destination whose successful writes accept at least one byte, the loop of
`bufio.Writer.Write` has enough fuel with `len(p) + 1`, one more when the buffer is not
empty: more fuel does not change the result, and a result without error has counted all
of `p`. -/
theorem Bufio.Write.loop_enough {υ ε : Type} (U : RawWriter υ ε) (errShort : ε)
    (hU : RawProgress U) (fuel : Nat) (b : Bufio υ ε) (p : List UInt8) (nn : Nat)
    (hf : p.length + (if b.buf = [] then 1 else 2) ≤ fuel) :
    (∀ fuel2 : Nat, p.length + (if b.buf = [] then 1 else 2) ≤ fuel2 →
      Bufio.Write.loop U errShort fuel2 b p nn = Bufio.Write.loop U errShort fuel b p nn) ∧
    ((Bufio.Write.loop U errShort fuel b p nn).2.1 = none →
      (Bufio.Write.loop U errShort fuel b p nn).1 = nn + p.length) := by
  induction fuel generalizing b p nn with
  | zero =>
    exfalso
    split at hf <;> omega
  | succ fuel ih =>
    by_cases hc : p.length > b.Available ∧ b.err = none
    · have hpne : p ≠ [] := by
        intro h
        rw [h] at hc
        simp at hc
      have hplen : 0 < p.length := List.length_pos.mpr hpne
      by_cases h0 : b.buf = []
      · rw [Bufio.Write.loop_direct U errShort fuel b p nn hc.1 hc.2 h0]
        cases he : (U.Write b.wr p).2.1 with
        | some e =>
          rw [Bufio.Write.loop_kept U errShort fuel _ _ _ e rfl]
          refine ⟨fun fuel2 hf2 => ?_, fun h => by simp at h⟩
          obtain ⟨k, rfl⟩ : ∃ k, fuel2 = k + 1 := ⟨fuel2 - 1, by split at hf2 <;> omega⟩
          rw [Bufio.Write.loop_direct U errShort k b p nn hc.1 hc.2 h0, he,
            Bufio.Write.loop_kept U errShort k _ _ _ e rfl]
        | none =>
          have hpos := hU b.wr p hpne he
          have hf' : (p.drop (min (U.Write b.wr p).1 p.length)).length
              + (if ({ b with wr := (U.Write b.wr p).2.2, err := (none : Option ε) } : Bufio υ ε).buf = [] then 1 else 2)
              ≤ fuel := by
            simp only [h0, if_true, List.length_drop] at hf ⊢
            omega
          obtain ⟨g1, g2⟩ := ih _ _ (nn + min (U.Write b.wr p).1 p.length) hf'
          refine ⟨fun fuel2 hf2 => ?_, fun h => ?_⟩
          · obtain ⟨k, rfl⟩ : ∃ k, fuel2 = k + 1 := ⟨fuel2 - 1, by split at hf2 <;> omega⟩
            rw [Bufio.Write.loop_direct U errShort k b p nn hc.1 hc.2 h0, he]
            apply g1
            simp only [h0, if_true, List.length_drop] at hf2 ⊢
            omega
          · rw [g2 h]
            simp only [List.length_drop]
            omega
      · rw [Bufio.Write.loop_fill U errShort fuel b p nn hc.1 hc.2 h0]
        obtain ⟨f1, f2, -⟩ := Bufio.Flush_spec U errShort
          { b with buf := b.buf ++ p.take (min b.Available p.length) }
        cases he : (Bufio.Flush U errShort
            { b with buf := b.buf ++ p.take (min b.Available p.length) }).1 with
        | some e =>
          have hd := f1.trans he
          rw [Bufio.Write.loop_kept U errShort fuel _ _ _ e hd]
          refine ⟨fun fuel2 hf2 => ?_, fun h => by simp at h⟩
          obtain ⟨k, rfl⟩ : ∃ k, fuel2 = k + 1 := ⟨fuel2 - 1, by split at hf2 <;> omega⟩
          rw [Bufio.Write.loop_fill U errShort k b p nn hc.1 hc.2 h0,
            Bufio.Write.loop_kept U errShort k _ _ _ e hd]
        | none =>
          have hbuf := f2 he
          have hf' : (p.drop (min b.Available p.length)).length
              + (if (Bufio.Flush U errShort
                  { b with buf := b.buf ++ p.take (min b.Available p.length) }).2.buf = []
                then 1 else 2) ≤ fuel := by
            simp only [hbuf, if_true, List.length_drop]
            simp only [h0, if_false] at hf
            omega
          obtain ⟨g1, g2⟩ := ih _ _ (nn + min b.Available p.length) hf'
          refine ⟨fun fuel2 hf2 => ?_, fun h => ?_⟩
          · obtain ⟨k, rfl⟩ : ∃ k, fuel2 = k + 1 := ⟨fuel2 - 1, by split at hf2 <;> omega⟩
            rw [Bufio.Write.loop_fill U errShort k b p nn hc.1 hc.2 h0]
            apply g1
            simp only [hbuf, if_true, List.length_drop]
            simp only [h0, if_false] at hf2
            omega
          · rw [g2 h]
            simp only [List.length_drop]
            omega
    · rw [Bufio.Write.loop_exit U errShort (fuel + 1) b p nn hc]
      refine ⟨fun fuel2 _ => Bufio.Write.loop_exit U errShort fuel2 b p nn hc, fun h => ?_⟩
      have hle : p.length ≤ b.Available := by
        by_contra hgt
        apply hc
        refine ⟨by omega, ?_⟩
        have := (Bufio.Write.finish_spec b p nn).1
        rw [h] at this
        cases hb : b.err with
        | none => rfl
        | some e =>
          rw [Bufio.Write.finish_dead b p nn e hb] at h
          simp at h
      exact (Bufio.Write.finish_spec b p nn).2.2.2.2.2 h hle

theorem bufioWriter_dead {υ ε : Type} (U : RawWriter υ ε) (errShort : ε) (b : Bufio υ ε)
    (e : ε) (hb : b.err = some e) : SinkDead (bufioWriter U errShort) b e := by
  refine ⟨fun q => ?_, Bufio.Flush_dead U errShort b e hb⟩
  simp only [bufioWriter, Bufio.Write, Bufio.Write.loop_kept U errShort _ b q 0 e hb]
  rfl

/-- A `bufio.Writer` keeps its first error. -/
theorem bufioWriter_sticky {υ ε : Type} (U : RawWriter υ ε) (errShort : ε) :
    SinkSticky (bufioWriter U errShort) := by
  refine ⟨fun b q e he => ?_, fun b e he => ?_⟩
  · apply bufioWriter_dead
    have := (Bufio.Write.loop_spec U errShort (q.length + 2) b q 0).1
    simp only [bufioWriter, Bufio.Write] at he ⊢
    rw [this, he]
  · apply bufioWriter_dead
    have := (Bufio.Flush_spec U errShort b).1
    simp only [bufioWriter] at he ⊢
    rw [this, he]

/-- A `bufio.Writer` over a destination whose successful writes accept at least one byte
returns `nil` from a write only when it has accepted all the bytes offered. -/
theorem bufioWriter_honest {υ ε : Type} (U : RawWriter υ ε) (errShort : ε)
    (hU : RawProgress U) : SinkHonest (bufioWriter U errShort) := by
  intro b q he
  simp only [bufioWriter, Bufio.Write] at he ⊢
  have := (Bufio.Write.loop_enough U errShort hU (q.length + 2) b q 0
    (by split <;> omega)).2 he
  rw [this]
  simp

/-- A `bufio.Writer` over a destination that stores what it reports does so itself, its
bytes being those on the destination followed by the buffered ones. -/
theorem bufioWriter_truthful {υ ε : Type} (U : RawWriter υ ε) (errShort : ε)
    (outU : υ → List UInt8) (hU : RawTruthful U outU) :
    SinkTruthful (bufioWriter U errShort) (fun b => outU b.wr ++ b.buf) := by
  refine ⟨fun b q => ?_, fun b => (Bufio.Flush_spec U errShort b).2.2 outU hU⟩
  obtain ⟨-, -, h3, h4⟩ := Bufio.Write.loop_spec U errShort (q.length + 2) b q 0
  simp only [bufioWriter, Bufio.Write]
  refine ⟨by omega, by simp only [Nat.zero_add] at h3; exact_mod_cast h3, ?_⟩
  have := h4 outU hU
  simp only [Nat.sub_zero] at this
  simpa using this

theorem nopFlusher_sticky (ε : Type) : SinkSticky (nopFlusher ε) := by
  refine ⟨fun s q e he => ?_, fun s e he => ?_⟩
  · simp [nopFlusher] at he
  · simp [nopFlusher] at he

theorem nopFlusher_truthful (ε : Type) : SinkTruthful (nopFlusher ε) id := by
  refine ⟨fun s q => ?_, fun s => rfl⟩
  simp [nopFlusher]

theorem wrapped_dead {υ ε : Type} (U : RawWriter υ ε) (errShort : ε) (b : Bufio υ ε) (e : ε)
    (h : SinkDead (bufioWriter U errShort) b e) :
    SinkDead (wrapped U errShort) (Wrapped.bufio b) e := by
  refine ⟨fun q => ?_, ?_⟩
  · simp only [wrapped, h.1 q]
  · simp only [wrapped, h.2]

/-- Every sink that `wrapWriter` builds keeps its first error. -/
theorem wrapped_sticky {υ ε : Type} (U : RawWriter υ ε) (errShort : ε) :
    SinkSticky (wrapped U errShort) := by
  refine ⟨fun s q e he => ?_, fun s e he => ?_⟩
  · cases s with
    | nop content => simp [wrapped, nopFlusher] at he
    | bufio b =>
      simp only [wrapped] at he ⊢
      exact wrapped_dead U errShort _ e ((bufioWriter_sticky U errShort).1 b q e he)
  · cases s with
    | nop content => simp [wrapped, nopFlusher] at he
    | bufio b =>
      simp only [wrapped] at he ⊢
      exact wrapped_dead U errShort _ e ((bufioWriter_sticky U errShort).2 b e he)

/-- Every sink that `wrapWriter` builds, over a destination whose successful writes accept
at least one byte, returns `nil` from a write only when it has accepted all the bytes
offered. -/
theorem wrapped_honest {υ ε : Type} (U : RawWriter υ ε) (errShort : ε) (hU : RawProgress U) :
    SinkHonest (wrapped U errShort) := by
  intro s q he
  cases s with
  | nop content => simp [wrapped, nopFlusher]
  | bufio b =>
    simp only [wrapped] at he ⊢
    exact bufioWriter_honest U errShort hU b q he

/-- Every sink that `wrapWriter` builds, over a destination that stores what it reports,
stores what it reports. -/
theorem wrapped_truthful {υ ε : Type} (U : RawWriter υ ε) (errShort : ε)
    (outU : υ → List UInt8) (hU : RawTruthful U outU) :
    SinkTruthful (wrapped U errShort) (Wrapped.out outU) := by
  refine ⟨fun s q => ?_, fun s => ?_⟩
  · cases s with
    | nop content => simp [wrapped, nopFlusher, Wrapped.out]
    | bufio b =>
      simp only [wrapped, Wrapped.out]
      exact (bufioWriter_truthful U errShort outU hU).1 b q
  · cases s with
    | nop content => simp [wrapped, nopFlusher, Wrapped.out]
    | bufio b =>
      simp only [wrapped, Wrapped.out]
      exact (bufioWriter_truthful U errShort outU hU).2 b

theorem faultDest_progress (k m : Nat) : RawProgress (faultDest k m) := by
  intro s q hq he
  simp only [faultDest] at he ⊢
  split
  · rename_i hk
    simp [hk] at he
  · exact List.length_pos.mpr hq

theorem faultDest_truthful (k m : Nat) : RawTruthful (faultDest k m) (fun s => s.2) := by
  intro s q
  simp only [faultDest]
  split
  · simp only
    congr 1
    rw [List.take_eq_take]
    omega
  · simp

/-! ## After a failed call -/

/-- A run of the loop that returns an error leaves a sink that keeps its first error dead
with that error. -/
theorem Write.loop_dead {σ ε : Type} (S : WriteFlusher σ ε) (hS : SinkSticky S) (fuel : Nat)
    (w : Writer σ) (p : List UInt8) (n : Int) (ops : List (SinkOp ε)) (hf : p.length ≤ fuel)
    (e : ε) (he : (Write.loop S fuel w p n ops).err = some e) :
    SinkDead S (Write.loop S fuel w p n ops).self.w e := by
  revert he
  refine Write.loop_induct S (fun _ _ _ _ r => r.err = some e → SinkDead S r.self.w e)
    ?_ ?_ ?_ ?_ ?_ ?_ ?_ fuel w p n ops hf
  · intro w n ops h
    exact hS.2 _ e h
  · intro w p n ops _ _ _ h
    exact hS.1 _ _ e h
  · intro w p n ops r _ _ _ ih h
    exact ih h
  · intro w p n ops _ _ _ _ h
    exact hS.2 _ e h
  · intro w p n ops _ _ _ _ h
    exact hS.1 _ _ e h
  · intro w p n ops i _ _ _ _ h
    exact hS.1 _ _ e h
  · intro w p n ops i r _ _ _ _ ih h
    exact ih h

/-- On a dead sink a run of the loop on a non-empty input stops at its first sink call: it
returns the count it started with and the error of the sink, and leaves the writer
unchanged. -/
theorem Write.loop_on_dead {σ ε : Type} (S : WriteFlusher σ ε) (fuel : Nat) (w : Writer σ)
    (p : List UInt8) (n : Int) (ops : List (SinkOp ε)) (hp : p ≠ []) (hf : p.length ≤ fuel)
    (e : ε) (hd : SinkDead S w.w e) :
    (Write.loop S fuel w p n ops).n = n ∧ (Write.loop S fuel w p n ops).err = some e ∧
    (Write.loop S fuel w p n ops).self = w := by
  obtain ⟨k, rfl⟩ : ∃ k, fuel = k + 1 :=
    ⟨fuel - 1, by have := List.length_pos.mpr hp; omega⟩
  cases hh : w.head with
  | true =>
    rw [Write.loop_pfx_err S k w p n ops hp hh (by rw [hd.1 w.pfx]; rfl)]
    simp only [hd.1 w.pfx, add_zero]
    exact ⟨trivial, trivial, trivial⟩
  | false =>
    cases hi : IndexByte p 10 with
    | none =>
      rw [Write.loop_last S k w p n ops hp hh hi, if_neg (by rw [hd.1 p]; simp)]
      simp only [hd.1 p, add_zero]
      exact ⟨trivial, trivial, trivial⟩
    | some i =>
      rw [Write.loop_seg S k w p n ops i hp hh hi, if_pos (by rw [hd.1 (p.take (i + 1))]; rfl)]
      simp only [hd.1 (p.take (i + 1)), add_zero]
      exact ⟨trivial, trivial, trivial⟩

/-- On a sink that stores what it reports and returns `nil` only for complete writes, the
bytes on the sink after a run of the loop, failed or not, are an initial part of the bytes
that a complete run leaves. -/
theorem Write.loop_initial {σ ε : Type} (S : WriteFlusher σ ε) (out : σ → List UInt8)
    (hT : SinkTruthful S out) (hH : SinkHonest S) (fuel : Nat) (w : Writer σ)
    (p : List UInt8) (n : Int) (ops : List (SinkOp ε)) (hf : p.length ≤ fuel) :
    ∃ rest : List UInt8,
      out (Write.loop S fuel w p n ops).self.w ++ rest = out w.w ++ render w.pfx w.head p := by
  have full : ∀ s q, (S.Write s q).2.1 = none → out (S.Write s q).2.2 = out s ++ q := by
    intro s q he
    have ho := (hT.1 s q).2.2
    rw [hH s q he] at ho
    simpa using ho
  refine Write.loop_induct S
    (fun w p _ _ r => ∃ rest : List UInt8, out r.self.w ++ rest = out w.w ++ render w.pfx w.head p)
    ?_ ?_ ?_ ?_ ?_ ?_ ?_ fuel w p n ops hf
  · intro w n ops
    exact ⟨[], by simp [hT.2, render]⟩
  · intro w p n ops hp hh _
    refine ⟨w.pfx.drop (S.Write w.w w.pfx).1.toNat ++ render w.pfx false p, ?_⟩
    simp only
    rw [(hT.1 w.w w.pfx).2.2, hh, render_head_true _ hp, List.append_assoc,
      ← List.append_assoc (w.pfx.take _), List.take_append_drop]
  · intro w p n ops r hp hh he ih
    obtain ⟨rest, h⟩ := ih
    refine ⟨rest, ?_⟩
    simp only at h
    rw [h, full _ _ he, hh, render_head_true _ hp, List.append_assoc]
  · intro w p n ops hp hh hi he
    refine ⟨[], ?_⟩
    simp only
    rw [hT.2, full _ _ he, hh, render_last _ hi, List.append_nil]
  · intro w p n ops hp hh hi _
    refine ⟨p.drop (S.Write w.w p).1.toNat, ?_⟩
    simp only
    rw [(hT.1 w.w p).2.2, hh, render_last _ hi, List.append_assoc, List.take_append_drop]
  · intro w p n ops i hp hh hi _
    refine ⟨(p.take (i + 1)).drop (S.Write w.w (p.take (i + 1))).1.toNat
      ++ render w.pfx true (p.drop (i + 1)), ?_⟩
    simp only
    rw [(hT.1 w.w (p.take (i + 1))).2.2, hh, render_seg _ hi, List.append_assoc,
      ← List.append_assoc ((p.take (i + 1)).take _), List.take_append_drop]
  · intro w p n ops i r hp hh hi he ih
    obtain ⟨rest, h⟩ := ih
    refine ⟨rest, ?_⟩
    simp only at h
    rw [h, full _ _ he, hh, render_seg _ hi, List.append_assoc]

theorem Write_dead {σ ε : Type} (S : WriteFlusher σ ε) (hS : SinkSticky S) (w : Writer σ)
    (p : List UInt8) (e : ε) (he : (Write S w p).err = some e) :
    SinkDead S (Write S w p).self.w e := by
  by_cases hp : p = []
  · subst hp
    simp [Write_nil] at he
  · rw [Write_of_ne_nil S w hp] at he ⊢
    exact Write.loop_dead S hS p.length w p 0 [] (le_refl _) e he

theorem Write_on_dead {σ ε : Type} (S : WriteFlusher σ ε) (w : Writer σ) (p : List UInt8)
    (hp : p ≠ []) (e : ε) (hd : SinkDead S w.w e) :
    (Write S w p).n = 0 ∧ (Write S w p).err = some e ∧ (Write S w p).self = w := by
  rw [Write_of_ne_nil S w hp]
  exact Write.loop_on_dead S p.length w p 0 [] hp (le_refl _) e hd

theorem Write_initial {σ ε : Type} (S : WriteFlusher σ ε) (out : σ → List UInt8)
    (hT : SinkTruthful S out) (hH : SinkHonest S) (w : Writer σ) (p : List UInt8) :
    ∃ rest : List UInt8, out (Write S w p).self.w ++ rest = out w.w ++ render w.pfx w.head p := by
  by_cases hp : p = []
  · subst hp
    exact ⟨[], by simp [Write_nil, render]⟩
  · rw [Write_of_ne_nil S w hp]
    exact Write.loop_initial S out hT hH p.length w p 0 [] (le_refl _)

/-- C12 as stated fails: the destination behind a 1-byte `bufio.Writer` fails on its first
write and accepts every byte afterwards. `Write(p)` returns `(0, err)`; the `bufio.Writer`
keeps that error, so the following `Write(p[0:])` on the same writer does not succeed: it
returns `(0, err)` again and nothing more reaches the destination. -/
theorem C12_counterexample :
    (Write (wrapped (faultDest 0 0) 0) (NewSize (wrapWriter (Dest.writer (0, [])) 1) [35])
      [65, 66]).n = 0 ∧
    (Write (wrapped (faultDest 0 0) 0) (NewSize (wrapWriter (Dest.writer (0, [])) 1) [35])
      [65, 66]).err = some 1 ∧
    (Write (wrapped (faultDest 0 0) 0) (NewSize (wrapWriter (Dest.writer (0, [])) 1) [35])
      [65, 66]).self.w = Wrapped.bufio ⟨(1, []), [35], 1, some 1⟩ ∧
    (faultDest 0 0).Write (1, []) [35, 65, 66] = (3, none, (2, [35, 65, 66])) ∧
    (Write (wrapped (faultDest 0 0) 0)
      (Write (wrapped (faultDest 0 0) 0) (NewSize (wrapWriter (Dest.writer (0, [])) 1) [35])
        [65, 66]).self (([65, 66] : List UInt8).drop 0)).n = 0 ∧
    (Write (wrapped (faultDest 0 0) 0)
      (Write (wrapped (faultDest 0 0) 0) (NewSize (wrapWriter (Dest.writer (0, [])) 1) [35])
        [65, 66]).self (([65, 66] : List UInt8).drop 0)).err = some 1 := by
  decide

/-- C12, amended: on a sink that keeps its first error, stores what it reports and returns
`nil` only for complete writes, as every sink built by `wrapWriter` does, if `Write(p)`
returns `(n, err)` with `err` non-nil, then a following `Write(p[n:])` on the same writer
makes no progress: when `p[n:]` is not empty it returns `(0, err)` with the same error, and
in every case it leaves the sink, the line-start flag and `Written()` as they were; the
bytes on the sink after both calls are those of the first call, an initial part of the
output of one fully successful `Write(p)` from the same starting state. -/
theorem C12_no_resume_after_error {σ ε : Type} (S : WriteFlusher σ ε) (out : σ → List UInt8)
    (hS : SinkSticky S) (hT : SinkTruthful S out) (hH : SinkHonest S) (w : Writer σ)
    (p : List UInt8) (e : ε) (he : (Write S w p).err = some e) :
    (p.drop (Write S w p).n.toNat ≠ [] →
      (Write S (Write S w p).self (p.drop (Write S w p).n.toNat)).n = 0 ∧
      (Write S (Write S w p).self (p.drop (Write S w p).n.toNat)).err = some e) ∧
    (Write S (Write S w p).self (p.drop (Write S w p).n.toNat)).self = (Write S w p).self ∧
    ∃ rest : List UInt8,
      out (Write S (Write S w p).self (p.drop (Write S w p).n.toNat)).self.w ++ rest
        = out w.w ++ render w.pfx w.head p := by
  have hd := Write_dead S hS w p e he
  have hself : (Write S (Write S w p).self (p.drop (Write S w p).n.toNat)).self
      = (Write S w p).self := by
    by_cases hq : p.drop (Write S w p).n.toNat = []
    · rw [hq, Write_nil]
    · exact (Write_on_dead S _ _ hq e hd).2.2
  refine ⟨fun hq => ?_, hself, ?_⟩
  · obtain ⟨h1, h2, -⟩ := Write_on_dead S _ _ hq e hd
    exact ⟨h1, h2⟩
  · rw [hself]
    exact Write_initial S out hT hH w p

theorem C12_no_resume_after_error_witness :
    SinkSticky (wrapped (faultDest 0 0) 0) ∧
    SinkTruthful (wrapped (faultDest 0 0) 0) (Wrapped.out (fun s => s.2)) ∧
    SinkHonest (wrapped (faultDest 0 0) 0) ∧
    (Write (wrapped (faultDest 0 0) 0) (NewSize (wrapWriter (Dest.writer (0, [])) 1) [35])
      [65, 66]).err = some 1 ∧
    ((Write (wrapped (faultDest 0 0) 0)
      (Write (wrapped (faultDest 0 0) 0) (NewSize (wrapWriter (Dest.writer (0, [])) 1) [35])
        [65, 66]).self
      (([65, 66] : List UInt8).drop
        (Write (wrapped (faultDest 0 0) 0) (NewSize (wrapWriter (Dest.writer (0, [])) 1) [35])
          [65, 66]).n.toNat)).n = 0 ∧
     (Write (wrapped (faultDest 0 0) 0)
      (Write (wrapped (faultDest 0 0) 0) (NewSize (wrapWriter (Dest.writer (0, [])) 1) [35])
        [65, 66]).self
      (([65, 66] : List UInt8).drop
        (Write (wrapped (faultDest 0 0) 0) (NewSize (wrapWriter (Dest.writer (0, [])) 1) [35])
          [65, 66]).n.toNat)).err = some 1) ∧
    (Write (wrapped (faultDest 0 0) 0)
      (Write (wrapped (faultDest 0 0) 0) (NewSize (wrapWriter (Dest.writer (0, [])) 1) [35])
        [65, 66]).self
      (([65, 66] : List UInt8).drop
        (Write (wrapped (faultDest 0 0) 0) (NewSize (wrapWriter (Dest.writer (0, [])) 1) [35])
          [65, 66]).n.toNat)).self
      = (Write (wrapped (faultDest 0 0) 0) (NewSize (wrapWriter (Dest.writer (0, [])) 1) [35])
          [65, 66]).self :=
  ⟨wrapped_sticky (faultDest 0 0) 0,
    wrapped_truthful (faultDest 0 0) 0 (fun s => s.2) (faultDest_truthful 0 0),
    wrapped_honest (faultDest 0 0) 0 (faultDest_progress 0 0), by decide,
    (C12_no_resume_after_error (wrapped (faultDest 0 0) 0) (Wrapped.out (fun s => s.2))
      (wrapped_sticky (faultDest 0 0) 0)
      (wrapped_truthful (faultDest 0 0) 0 (fun s => s.2) (faultDest_truthful 0 0))
      (wrapped_honest (faultDest 0 0) 0 (faultDest_progress 0 0))
      (NewSize (wrapWriter (Dest.writer (0, [])) 1) [35]) [65, 66] 1 (by decide)).1 (by decide),
    (C12_no_resume_after_error (wrapped (faultDest 0 0) 0) (Wrapped.out (fun s => s.2))
      (wrapped_sticky (faultDest 0 0) 0)
      (wrapped_truthful (faultDest 0 0) 0 (fun s => s.2) (faultDest_truthful 0 0))
      (wrapped_honest (faultDest 0 0) 0 (faultDest_progress 0 0))
      (NewSize (wrapWriter (Dest.writer (0, [])) 1) [35]) [65, 66] 1 (by decide)).2.1⟩

/-- C16: whenever the loop is at line start with unprocessed input, on a sink that returns
`nil` from a write only when it accepted all the bytes offered, as every sink built by
`wrapWriter` does, its next sink call offers the whole prefix and the count the sink
returns is added to `written`; if that write returns an error or accepts fewer bytes than
`len(prefix)`, its error is non-nil and the loop stops there, with no further sink call,
returning the count `n` of input bytes consumed so far together with that error; otherwise
the loop goes on from the same point with the line-start flag cleared. -/
theorem C16_prefix_write_step {σ ε : Type} (S : WriteFlusher σ ε) (hS : SinkHonest S)
    (fuel : Nat) (w : Writer σ) (p : List UInt8) (n : Int) (ops : List (SinkOp ε))
    (hp : p ≠ []) (hf : p.length ≤ fuel) (hh : w.head = true) :
    (∃ more : List (SinkOp ε), (Write.loop S fuel w p n ops).ops
        = ops ++ SinkOp.writePfx w.pfx (S.Write w.w w.pfx).1 (S.Write w.w w.pfx).2.1 :: more) ∧
    ((S.Write w.w w.pfx).2.1 ≠ none ∨ (S.Write w.w w.pfx).1 < (w.pfx.length : Int) →
      (S.Write w.w w.pfx).2.1 ≠ none ∧
      Write.loop S fuel w p n ops
        = ⟨n, (S.Write w.w w.pfx).2.1,
            { w with w := (S.Write w.w w.pfx).2.2, written := w.written + (S.Write w.w w.pfx).1 },
            ops ++ [SinkOp.writePfx w.pfx (S.Write w.w w.pfx).1 (S.Write w.w w.pfx).2.1]⟩) ∧
    ((S.Write w.w w.pfx).2.1 = none →
      Write.loop S fuel w p n ops
        = Write.loop S fuel
            { w with w := (S.Write w.w w.pfx).2.2, written := w.written + (S.Write w.w w.pfx).1, head := false }
            p n (ops ++ [SinkOp.writePfx w.pfx (S.Write w.w w.pfx).1 (S.Write w.w w.pfx).2.1])) := by
  obtain ⟨k, rfl⟩ : ∃ k, fuel = k + 1 :=
    ⟨fuel - 1, by have := List.length_pos.mpr hp; omega⟩
  have herr : (S.Write w.w w.pfx).2.1 ≠ none → Write.loop S (k + 1) w p n ops
      = ⟨n, (S.Write w.w w.pfx).2.1,
          { w with w := (S.Write w.w w.pfx).2.2, written := w.written + (S.Write w.w w.pfx).1 },
          ops ++ [SinkOp.writePfx w.pfx (S.Write w.w w.pfx).1 (S.Write w.w w.pfx).2.1]⟩ :=
    fun he => Write.loop_pfx_err S k w p n ops hp hh (Option.isSome_iff_ne_none.mpr he)
  have hfail : (S.Write w.w w.pfx).2.1 ≠ none ∨ (S.Write w.w w.pfx).1 < (w.pfx.length : Int) →
      (S.Write w.w w.pfx).2.1 ≠ none := by
    intro h he
    rcases h with h | h
    · exact h he
    · have := hS w.w w.pfx he
      omega
  refine ⟨?_, fun h => ⟨hfail h, herr (hfail h)⟩,
    fun he => Write.loop_pfx_ok S k w p n ops hp hh he⟩
  by_cases he : (S.Write w.w w.pfx).2.1 = none
  · rw [Write.loop_pfx_ok S k w p n ops hp hh he]
    obtain ⟨more, h1, -⟩ := Write.loop_account S (k + 1)
      { w with w := (S.Write w.w w.pfx).2.2, written := w.written + (S.Write w.w w.pfx).1, head := false }
      p n (ops ++ [SinkOp.writePfx w.pfx (S.Write w.w w.pfx).1 (S.Write w.w w.pfx).2.1]) hf
    exact ⟨more, by rw [h1]; simp⟩
  · rw [herr he]
    exact ⟨[], rfl⟩

theorem C16_prefix_write_step_witness :
    SinkHonest (wrapped (faultDest 0 1) 0) ∧ ([65, 10] : List UInt8) ≠ [] ∧
    ([65, 10] : List UInt8).length ≤ 2 ∧
    (NewSize (wrapWriter (Dest.writer ((0, []) : Nat × List UInt8)) 1) [35, 32] :
      Writer (Wrapped (Nat × List UInt8) Nat)).head = true ∧
    ((wrapped (faultDest 0 1) 0).Write (wrapWriter (Dest.writer (0, [])) 1) [35, 32]).1 = 1 ∧
    ((wrapped (faultDest 0 1) 0).Write (wrapWriter (Dest.writer (0, [])) 1) [35, 32]).2.1
      = some 1 ∧
    (Write.loop (wrapped (faultDest 0 1) 0) 2
      (NewSize (wrapWriter (Dest.writer (0, [])) 1) [35, 32]) [65, 10] 0 []).n = 0 ∧
    (Write.loop (wrapped (faultDest 0 1) 0) 2
      (NewSize (wrapWriter (Dest.writer (0, [])) 1) [35, 32]) [65, 10] 0 []).err = some 1 :=
  ⟨wrapped_honest (faultDest 0 1) 0 (faultDest_progress 0 1), by decide, by decide, rfl,
    by decide, by decide,
    congrArg WriteResult.n ((C16_prefix_write_step (wrapped (faultDest 0 1) 0)
      (wrapped_honest (faultDest 0 1) 0 (faultDest_progress 0 1)) 2
      (NewSize (wrapWriter (Dest.writer (0, [])) 1) [35, 32]) [65, 10] 0 []
      (by decide) (by decide) rfl).2.1 (Or.inr (by decide))).2,
    by decide⟩

/-- C10: for every sink that returns `nil` from a write only when it accepted all the bytes
offered, as every sink built by `wrapWriter` does (`wrapped_honest`), and for every writer
state and input `p`: a nil error from `Write(p)` implies that `n = len(p)` and that every
sink write of the call, of content and of the prefix, accepted all the bytes offered; so
`Write(p)` returns a non-nil error whenever a sink write was short or `n < len(p)`. -/
theorem C10_nil_means_complete {σ ε : Type} (S : WriteFlusher σ ε) (hS : SinkHonest S)
    (w : Writer σ) (p : List UInt8) (he : (Write S w p).err = none) :
    (Write S w p).n = p.length ∧ opsAllFull (Write S w p).ops := by
  by_cases hp : p = []
  · subst hp; simp [Write_nil, opsAllFull]
  · rw [Write_of_ne_nil S w hp] at he ⊢
    obtain ⟨h1, h2⟩ := Write.loop_honest S hS p.length w p 0 [] (le_refl _) he
    exact ⟨by simpa using h1, h2 (by simp [opsAllFull])⟩

theorem C10_nil_means_complete_witness :
    SinkHonest (wrapped (faultDest 9 0) 0) ∧
    (Write (wrapped (faultDest 9 0) 0) (New (Dest.writer (0, [])) [35, 32]) [65, 10, 66]).err
      = none ∧
    (Write (wrapped (faultDest 9 0) 0) (New (Dest.writer (0, [])) [35, 32]) [65, 10, 66]).n
      = ([65, 10, 66] : List UInt8).length ∧
    opsAllFull
      (Write (wrapped (faultDest 9 0) 0) (New (Dest.writer (0, [])) [35, 32]) [65, 10, 66]).ops :=
  ⟨wrapped_honest (faultDest 9 0) 0 (faultDest_progress 9 0), by decide,
    C10_nil_means_complete (wrapped (faultDest 9 0) 0)
      (wrapped_honest (faultDest 9 0) 0 (faultDest_progress 9 0))
      (New (Dest.writer (0, [])) [35, 32]) [65, 10, 66] (by decide)⟩

end prefixwriter
